import Mathlib

/-!
Verification development for the htmp template compiler
(`src/index.ts`, `src/lib/options.ts`, `src/lib/parser.ts`, `src/lib/utils.ts`).

The engine is embedded shallowly:

* The mutable DOM (domhandler `Element`/`Text`/comment nodes) becomes the
  mutual inductive `HNode`/`NodeList`; attributes are ordered association
  lists, matching the insertion-ordered string maps of JS objects.
* The external expression evaluator (`runInNewContext`) is an opaque
  parameter `evalExpr : String → Scope → Value`; scopes are chains of
  frames, mirroring `Object.create` prototype chains (reads fall through,
  writes go to the head frame).  JS values are modelled by `Value`
  (numbers restricted to integers; `null` and `undefined` are conflated
  into `vNull`, which also makes `jsStrictEq vNull vNull = true` where JS
  would distinguish `null === undefined`; arrays compare unequal under
  strict equality, matching reference comparison of arrays produced by
  distinct evaluator calls).
* Server scripts (`runInNewContext` on `<script server>` bodies, together
  with the lazy `props` proxy that consumes caller attributes) are an
  opaque parameter `runScript`, returning the updated local frame and the
  remaining caller attributes.
* Component sources come from an opaque map `components : String →
  Option NodeList`, standing for the constructor-passed component map,
  the cache and the filesystem loader combined (with `parseHtml` applied,
  which is an external collaborator).
* The rewriter itself (`processTree` / `processNode` /
  `processConditional`) is potentially non-terminating on authored input
  (self-referential components are explicitly unguarded in the source),
  so it is embedded as a single function `rewriteRun` structurally
  recursive on a fuel counter; `Res.fuelOut` reports exhaustion, and
  `Res.err` carries the source's thrown error messages verbatim.

Configurable tag names are fixed at their defaults from
`getDefaultOptions` ("dynamic", "component", "x-", "yield", "slot",
"fill", "stack", "push", "eval", "attr", the `%%(.+?)%%` content pattern),
which is what every claim is phrased against.
-/

namespace HTmp

/-! ## JS values and scopes -/

mutual
/-- JS value as seen by the engine.  Numbers are modelled as integers;
`null` and `undefined` are both `vNull`. -/
inductive Value where
  | vNull
  | vBool (b : Bool)
  | vNum (n : Int)
  | vStr (s : String)
  | vArr (elems : ValueArr)

/-- Array of JS values (a separate inductive so that recursion over
nested arrays is structural). -/
inductive ValueArr where
  | nil
  | cons (head : Value) (tail : ValueArr)
end

namespace ValueArr

def ofList : List Value → ValueArr
  | [] => .nil
  | v :: rest => .cons v (ofList rest)

def toList : ValueArr → List Value
  | .nil => []
  | .cons v rest => v :: toList rest

def length : ValueArr → Nat
  | .nil => 0
  | .cons _ rest => length rest + 1

end ValueArr

/-- JS truthiness (`!!v`) on modelled values. -/
def truthy : Value → Bool
  | .vNull => false
  | .vBool b => b
  | .vNum n => n ≠ 0
  | .vStr s => s ≠ ""
  | .vArr _ => true

mutual
/-- JS template stringification `${v}` of a modelled value.  Arrays
join their elements with commas, nullish elements rendering as "". -/
def toJSString : Value → String
  | .vNull => "null"
  | .vBool b => if b then "true" else "false"
  | .vNum n => toString n
  | .vStr s => s
  | .vArr elems => arrJoin elems

/-- JS `Array.prototype.toString`: comma-joined elements, nullish
elements rendered as the empty string. -/
def arrJoin : ValueArr → String
  | .nil => ""
  | .cons v .nil => (match v with | .vNull => "" | w => toJSString w)
  | .cons v rest => (match v with | .vNull => "" | w => toJSString w) ++ "," ++ arrJoin rest
end

/-- JS strict equality (`===`) on modelled values.  Arrays are compared
by reference in JS; values produced by distinct evaluator invocations can
never be identical, so array comparison is `false` here. -/
def jsStrictEq : Value → Value → Bool
  | .vNull, .vNull => true
  | .vBool a, .vBool b => a = b
  | .vNum a, .vNum b => a = b
  | .vStr a, .vStr b => a = b
  | _, _ => false

/-- One own-property frame of a scope object. -/
abbrev Frame := List (String × Value)

/-- A prototype chain of frames; the head is the innermost object. -/
abbrev Scope := List Frame

/-- Own-property write (`obj[k] = v`): replace in place or append. -/
def frameSet : Frame → String → Value → Frame
  | [], k, v => [(k, v)]
  | (k0, v0) :: rest, k, v =>
      if k0 = k then (k, v) :: rest else (k0, v0) :: frameSet rest k v

/-- Property read along the prototype chain. -/
def scopeLookup : Scope → String → Option Value
  | [], _ => none
  | fr :: rest, k =>
      match (fr.find? (fun p => p.1 = k)).map (fun p => p.2) with
      | some v => some v
      | none => scopeLookup rest k

/-- Write to the nearest (head) frame, as JS property assignment does on
an `Object.create` child. -/
def scopeSet : Scope → String → Value → Scope
  | [], k, v => [[(k, v)]]
  | fr :: rest, k, v => frameSet fr k v :: rest

/-- `Object.create(proto)`: a fresh empty frame chained onto the parent. -/
def pushFrame (s : Scope) : Scope := [] :: s

/-! ## Results -/

/-- Outcome of a compile step: success, a thrown error (message as in the
source), or fuel exhaustion of the embedding. -/
inductive Res (α : Type) where
  | ok (val : α)
  | err (msg : String)
  | fuelOut

def Res.bind {α β : Type} : Res α → (α → Res β) → Res β
  | .ok v, f => f v
  | .err m, _ => .err m
  | .fuelOut, _ => .fuelOut

instance : Monad Res where
  pure := .ok
  bind := Res.bind

/-! ## Nodes -/

mutual
/-- A DOM node: `Element` (tag, ordered attributes, children), `Text`,
or any other non-tag node (comments etc., which the engine passes
through). -/
inductive HNode where
  | text (data : String)
  | comment (data : String)
  | elem (tagName : String) (attribs : List (String × String)) (children : NodeList)

/-- An ordered child list (a separate inductive so that recursion over
the tree is structural). -/
inductive NodeList where
  | nil
  | cons (head : HNode) (tail : NodeList)
end

/-- Ordered attribute map of an element. -/
abbrev AttrList := List (String × String)

namespace NodeList

def ofList : List HNode → NodeList
  | [] => .nil
  | n :: rest => .cons n (ofList rest)

def toList : NodeList → List HNode
  | .nil => []
  | .cons n rest => n :: toList rest

def append : NodeList → NodeList → NodeList
  | .nil, l => l
  | .cons n rest, l => .cons n (append rest l)

instance : Append NodeList := ⟨NodeList.append⟩

def length : NodeList → Nat
  | .nil => 0
  | .cons _ rest => length rest + 1

def get? : NodeList → Nat → Option HNode
  | .nil, _ => none
  | .cons n _, 0 => some n
  | .cons _ rest, Nat.succ i => get? rest i

def take : NodeList → Nat → NodeList
  | .nil, _ => .nil
  | .cons _ _, 0 => .nil
  | .cons n rest, Nat.succ i => .cons n (take rest i)

def drop : NodeList → Nat → NodeList
  | l, 0 => l
  | .nil, _ => .nil
  | .cons _ rest, Nat.succ i => drop rest i

/-- Replace the node at an index (out-of-range leaves the list alone). -/
def set : NodeList → Nat → HNode → NodeList
  | .nil, _, _ => .nil
  | .cons _ rest, 0, x => .cons x rest
  | .cons n rest, Nat.succ i, x => .cons n (set rest i x)

def filter (p : HNode → Bool) : NodeList → NodeList
  | .nil => .nil
  | .cons n rest => if p n then .cons n (filter p rest) else filter p rest

def find? (p : HNode → Bool) : NodeList → Option HNode
  | .nil => none
  | .cons n rest => if p n then some n else find? p rest

/-- Rewrite the first node satisfying the predicate (in-place update at
its position), leaving everything else untouched. -/
def updateFirst (p : HNode → Bool) (f : HNode → HNode) : NodeList → NodeList
  | .nil => .nil
  | .cons n rest =>
      if p n then .cons (f n) rest else .cons n (updateFirst p f rest)

def isEmpty : NodeList → Bool
  | .nil => true
  | .cons _ _ => false

end NodeList

open NodeList (ofList)

/-- Single-node list. -/
def one (n : HNode) : NodeList := .cons n .nil

/-- Splice: replace the single element at index `i` by `repl`. -/
def nlSplice (l : NodeList) (i : Nat) (repl : NodeList) : NodeList :=
  l.take i ++ repl ++ l.drop (i + 1)

/-- Remove the single element at index `i`. -/
def nlRemoveAt (l : NodeList) (i : Nat) : NodeList :=
  l.take i ++ l.drop (i + 1)

def joinN : List NodeList → NodeList
  | [] => .nil
  | l :: rest => l ++ joinN rest

/-! ## Attribute operations (JS object semantics) -/

/-- `k in obj` / read. -/
def getAttr (attribs : AttrList) (k : String) : Option String :=
  (attribs.find? (fun p => p.1 = k)).map (fun p => p.2)

def hasAttr (attribs : AttrList) (k : String) : Bool :=
  (getAttr attribs k).isSome

/-- `obj[k] = v`: update in place when present, else append. -/
def setAttr : AttrList → String → String → AttrList
  | [], k, v => [(k, v)]
  | (k0, v0) :: rest, k, v =>
      if k0 = k then (k, v) :: rest else (k0, v0) :: setAttr rest k v

/-- `delete obj[k]`. -/
def delAttr (attribs : AttrList) (k : String) : AttrList :=
  attribs.filter (fun p => ¬ (p.1 = k))

/-- Tag-name test on a node. -/
def isTagNamed (t : String) : HNode → Bool
  | .elem tn _ _ => tn = t
  | _ => false

def isElemNode : HNode → Bool
  | .elem _ _ _ => true
  | _ => false

def tagOf : HNode → String
  | .elem tn _ _ => tn
  | _ => ""

/-! ## Default option names (`getDefaultOptions` in `lib/options.ts`) -/

def dynamicTagName : String := "dynamic"
def componentTagName : String := "component"
/-- `componentTagPrefix` default `"x-"`. -/
def componentTagStart : String := "x-"
def yieldTagName : String := "yield"
def slotTagName : String := "slot"
def fillTagName : String := "fill"
def stackTagName : String := "stack"
def pushTagName : String := "push"
/-- `evaluateAttributePrefix` default `"eval"`. -/
def evalAttrMarker : String := "eval"
/-- `attrAttribute` default `"attr"`. -/
def attrAttrName : String := "attr"

/-! ## Content evaluation (`evaluateContentPattern`, default `/%%(.+?)%%/g`)

`node.data.replaceAll(pattern, ...)` from `processNode`.  The regex scan
is embedded directly: `.` does not match a line terminator, `+?` is lazy
(earliest closing `%%` with a non-empty capture), and a failed match
attempt advances the scan by one character.  Replacements are not
rescanned, exactly as with `replaceAll`. -/

/-- Find the earliest closing `%%` preceded by at least one captured
character, none of which may be a line terminator.  Returns the capture
and the remainder after the closing `%%`. -/
def findCloseGo (accRev : List Char) : List Char → Option (List Char × List Char)
  | '%' :: '%' :: rest => some (accRev.reverse, rest)
  | c :: rest =>
      if c = '\n' ∨ c = '\r' then none else findCloseGo (c :: accRev) rest
  | [] => none

def findClose : List Char → Option (List Char × List Char)
  | [] => none
  | c :: rest =>
      if c = '\n' ∨ c = '\r' then none else findCloseGo [c] rest

/-- Stringify one evaluated interpolation result: `false`/nullish become
the empty string, everything else its JS string form. -/
def replString (v : Value) : String :=
  match v with
  | .vNull => ""
  | .vBool false => ""
  | w => toJSString w

/-- One `replaceAll` scan.  The fuel argument only bounds the recursion
(each step consumes at least one input character, so `length + 1` fuel is
always enough); it is not part of the source semantics. -/
def evalTextGo (ev : String → Scope → Value) (scope : Scope) :
    Nat → List Char → List Char
  | 0, cs => cs
  | Nat.succ _, [] => []
  | Nat.succ _, [c1] => [c1]
  | Nat.succ f, c1 :: c2 :: rest2 =>
      if c1 = '%' ∧ c2 = '%' then
        match findClose rest2 with
        | some (inner, rest3) =>
            (replString (ev (String.mk inner) scope)).data
              ++ evalTextGo ev scope f rest3
        | none => c1 :: evalTextGo ev scope f (c2 :: rest2)
      else c1 :: evalTextGo ev scope f (c2 :: rest2)

/-- Evaluate all `%%...%%` interpolations of a text node. -/
def evalTextStr (ev : String → Scope → Value) (scope : Scope) (s : String) : String :=
  String.mk (evalTextGo ev scope (s.data.length + 1) s.data)

/-- Does the text contain at least one interpolation match?  Mirrors the
scan of `evalTextGo`. -/
def textHasPattern : List Char → Bool
  | [] => false
  | [_] => false
  | c1 :: c2 :: rest2 =>
      if c1 = '%' ∧ c2 = '%' then
        match findClose rest2 with
        | some _ => true
        | none => textHasPattern (c2 :: rest2)
      else textHasPattern (c2 :: rest2)

/-! ## Colon matching (`colonMatch` helper) -/

/-- Split at the first `:` having a non-empty part on both sides
(the lazy regex `^(.+?):(.+)$`). -/
def colonSplitGo (accRev : List Char) : List Char → Option (List Char × List Char)
  | [] => none
  | ':' :: rest =>
      if accRev = [] ∨ rest = [] then colonSplitGo (':' :: accRev) rest
      else some (accRev.reverse, rest)
  | c :: rest => colonSplitGo (c :: accRev) rest

/-- `colonMatch(2, k)`: segments of `^(.+?):(.+)$`. -/
def colonMatch2 (k : String) : Option (String × String) :=
  (colonSplitGo [] k.data).map (fun p => (String.mk p.1, String.mk p.2))

/-- `colonMatch(3, k)`: segments of `^(.+?):(.+?):(.+)$`, with the
backtracking the regex engine performs when the remainder after a
candidate first split cannot be split again. -/
def colonMatch3Go (accRev : List Char) : List Char → Option (String × String × String)
  | [] => none
  | ':' :: rest =>
      match (if accRev = [] then none else colonSplitGo [] rest) with
      | some (b, c) => some (String.mk accRev.reverse, String.mk b, String.mk c)
      | none => colonMatch3Go (':' :: accRev) rest
  | c :: rest => colonMatch3Go (c :: accRev) rest

def colonMatch3 (k : String) : Option (String × String × String) :=
  colonMatch3Go [] k.data

/-! ## Attribute evaluation (`processNode` lines 97-116) -/

/-- Process the snapshot of `Object.entries(node.attribs)` against the
current attribute map: every `eval:<target>` attribute is deleted, its
value evaluated, and the target set/skipped according to the result. -/
def processAttribsGo (ev : String → Scope → Value) (scope : Scope) :
    List (String × String) → AttrList → AttrList
  | [], cur => cur
  | (k, v) :: rest, cur =>
      match colonMatch2 k with
      | some (seg0, seg1) =>
          if seg0 = evalAttrMarker then
            let cur1 := delAttr cur k
            match ev v scope with
            | .vNull => processAttribsGo ev scope rest cur1
            | .vBool false => processAttribsGo ev scope rest cur1
            | .vBool true => processAttribsGo ev scope rest (setAttr cur1 seg1 "")
            | r => processAttribsGo ev scope rest (setAttr cur1 seg1 (toJSString r))
          else processAttribsGo ev scope rest cur
      | none => processAttribsGo ev scope rest cur

def processAttribs (ev : String → Scope → Value) (scope : Scope)
    (attribs : AttrList) : AttrList :=
  processAttribsGo ev scope attribs attribs

/-- No attribute key is an `eval:`-prefixed key (so the evaluation pass
leaves the attribute map unchanged). -/
def noEvalAttrs (attribs : AttrList) : Bool :=
  attribs.all (fun kv =>
    match colonMatch2 kv.1 with
    | some (seg0, _) => ! (seg0 = evalAttrMarker)
    | none => true)

/-! ## Attribute merge strategies (`attributeMergeStrategies`) -/

/-- A strategy matches by exact attribute name or by a pattern; regular
expressions are external, so a pattern is an opaque `String → Bool`. -/
inductive MergeMatcher where
  | byName (name : String)
  | byPattern (test : String → Bool)

/-- Result of a merge function: `string | boolean | undefined | null`
(nullish collapses to one case). -/
inductive MergeResult where
  | str (s : String)
  | bool (b : Bool)
  | nullish

structure MergeStrategy where
  matcher : MergeMatcher
  merge : Option String → String → MergeResult

/-- `"name" in s && s.name === k`. -/
def matcherHitsName (s : MergeStrategy) (k : String) : Bool :=
  match s.matcher with
  | .byName n => n = k
  | .byPattern _ => false

/-- `"pattern" in s && s.pattern.test(k)`. -/
def matcherHitsPattern (s : MergeStrategy) (k : String) : Bool :=
  match s.matcher with
  | .byName _ => false
  | .byPattern t => t k

/-- Built-in `class` strategy from `getDefaultOptions`. -/
def classStrategy : MergeStrategy where
  matcher := .byName "class"
  merge := fun a b => .str (((a.getD "") ++ " " ++ b).trim)

/-- Built-in `style` strategy from `getDefaultOptions`. -/
def styleStrategy : MergeStrategy where
  matcher := .byName "style"
  merge := fun a b =>
    let newA0 := (a.getD "").trim
    let newA := if newA0.endsWith ";" then newA0 else newA0 ++ ";"
    let newB0 := b.trim
    let newB := if newB0.endsWith ";" then newB0 else newB0 ++ ";"
    .str ((newA ++ " " ++ newB).trim)

/-- `getDefaultOptions`: the passed strategies, with the built-in
`class`/`style` strategies appended when no exact-name strategy for that
name was passed. -/
def configuredStrategies (passed : List MergeStrategy) : List MergeStrategy :=
  let l1 := passed ++
    (if passed.any (fun s => matcherHitsName s "class") then [] else [classStrategy])
  l1 ++ (if l1.any (fun s => matcherHitsName s "style") then [] else [styleStrategy])

/-- `assignAttributesToElement` (lines 590-610): fold the source
attributes into the target map, resolving the merge function per name
(first exact-name strategy, else first pattern strategy, else plain
overwrite) and applying its result (string sets the value, `true` sets
the empty value, `false`/nullish delete the attribute). -/
def assignAttributesToElement (strats : List MergeStrategy)
    (target source : AttrList) : AttrList :=
  source.foldl
    (fun tgt kv =>
      let mergeFn :=
        match strats.find? (fun s => matcherHitsName s kv.1) with
        | some s => s.merge
        | none =>
            match strats.find? (fun s => matcherHitsPattern s kv.1) with
            | some s => s.merge
            | none => fun _ val => .str val
      match mergeFn (getAttr tgt kv.1) kv.2 with
      | .str s => setAttr tgt kv.1 s
      | .bool true => setAttr tgt kv.1 ""
      | .bool false => delAttr tgt kv.1
      | .nullish => delAttr tgt kv.1)
    target

/-! ## Tree search (`findNodes` / `findElements` from `lib/utils.ts`)

`findNodes` first collects all matches of the current sibling list, then
appends, per node in order, the matches from its children — a layered
order, not document pre-order.  Collection happens before any mutation,
so the embedding computes the full list up front. -/

def childrenOf : HNode → NodeList
  | .elem _ _ cs => cs
  | _ => .nil

mutual
/-- The matches strictly inside one node, in `findNodes` order. -/
def findDeeperN (p : HNode → Bool) : HNode → NodeList
  | .elem _ _ cs => cs.filter p ++ findDeeperL p cs
  | _ => .nil

/-- The matches strictly below the top level, in `findNodes` order. -/
def findDeeperL (p : HNode → Bool) : NodeList → NodeList
  | .nil => .nil
  | .cons n rest => findDeeperN p n ++ findDeeperL p rest
end

/-- `findNodes(tree, test)` restricted to element tests
(`findElements`): all top-level matches first, then — per node in
sibling order — the matches of its subtree, recursively in the same
layered order.  This is not document pre-order when matches occur at
different depths. -/
def findNodesLayered (p : HNode → Bool) (tree : NodeList) : NodeList :=
  tree.filter p ++ findDeeperL p tree

mutual
/-- Remove every element with the given tag, together with its whole
subtree, at any depth (the value-level effect of `removeElement` on each
node of a precomputed `findElements` list). -/
def removeByTagN (t : String) : HNode → NodeList
  | .elem tn a cs => if tn = t then .nil else one (.elem tn a (removeByTagL t cs))
  | n => one n

def removeByTagL (t : String) : NodeList → NodeList
  | .nil => .nil
  | .cons n rest => removeByTagN t n ++ removeByTagL t rest
end

mutual
/-- `innerText` from domutils: concatenated text of all descendants. -/
def innerTextN : HNode → String
  | .text d => d
  | .comment _ => ""
  | .elem _ _ cs => innerTextL cs

def innerTextL : NodeList → String
  | .nil => ""
  | .cons n rest => innerTextN n ++ innerTextL rest
end

/-! ## Component attribute passing (`processNode` lines 333-373) -/

/-- Append an entry to an association bucket, creating the bucket on
first use (`attrMap[slot] ??= {}` followed by assignment). -/
def bucketAdd (m : List (String × AttrList)) (slot : String)
    (entry : String × String) : List (String × AttrList) :=
  match m with
  | [] => [(slot, [entry])]
  | (s, b) :: rest =>
      if s = slot then (s, b ++ [entry]) :: rest
      else (s, b) :: bucketAdd rest slot entry

def lookupBucket (m : List (String × AttrList)) (slot : String) : Option AttrList :=
  (m.find? (fun p => p.1 = slot)).map (fun p => p.2)

/-- Left fold over the caller attributes in order, routing each entry to
its bucket. -/
def buildAttrMapGo (acc : List (String × AttrList)) :
    AttrList → List (String × AttrList)
  | [] => acc
  | (k, v) :: rest =>
      match colonMatch3 k with
      | some (seg0, seg1, seg2) =>
          if seg0 = attrAttrName then
            buildAttrMapGo (bucketAdd acc seg1 (seg2, v)) rest
          else buildAttrMapGo (bucketAdd acc "" (k, v)) rest
      | none => buildAttrMapGo (bucketAdd acc "" (k, v)) rest

/-- Organize the caller attributes into the attribute map:
`attr:<slot>:<name>` goes to bucket `slot`, everything else to the
default bucket `""`. -/
def buildAttrMap (attribs : AttrList) : List (String × AttrList) :=
  buildAttrMapGo [] attribs

mutual
/-- Pass attributes through to every element carrying the `attr` marker
(lines 349-360): delete the marker, merge in the matching bucket when it
exists, and record whether any marker claimed the default (empty-string)
bucket.  The found elements neither gain nor lose descendants, so the
precomputed-list iteration of the source equals this structural pass. -/
def applyMarkersN (strats : List MergeStrategy)
    (attrMap : List (String × AttrList)) : HNode → HNode × Bool
  | .elem t a cs =>
      let res := applyMarkersL strats attrMap cs
      match getAttr a attrAttrName with
      | some val =>
          let a1 := delAttr a attrAttrName
          let a2 :=
            match lookupBucket attrMap val with
            | some bucket => assignAttributesToElement strats a1 bucket
            | none => a1
          (.elem t a2 res.1, res.2 || (val = ""))
      | none => (.elem t a res.1, res.2)
  | n => (n, false)

def applyMarkersL (strats : List MergeStrategy)
    (attrMap : List (String × AttrList)) : NodeList → NodeList × Bool
  | .nil => (.nil, false)
  | .cons n rest =>
      let r1 := applyMarkersN strats attrMap n
      let r2 := applyMarkersL strats attrMap rest
      (.cons r1.1 r2.1, r1.2 || r2.2)
end

/-- Lines 362-373: when no element claimed the default bucket, apply the
default-bucket attributes to the first top-level element whose tag is
neither `script` nor `style`. -/
def updateFirstTag (strats : List MergeStrategy) (bucket : AttrList) :
    NodeList → NodeList
  | .nil => .nil
  | .cons n rest =>
      match n with
      | .elem t a cs =>
          if t = "script" ∨ t = "style" then
            .cons (.elem t a cs) (updateFirstTag strats bucket rest)
          else .cons (.elem t (assignAttributesToElement strats a bucket) cs) rest
      | m => .cons m (updateFirstTag strats bucket rest)

/-- Steps 7-9 of component expansion (lines 333-373): build the
attribute map from the caller attributes, distribute it over the marked
elements of the component tree, and fall back to the first
non-script/non-style top-level element for an unclaimed default bucket. -/
def passAttributesToComponent (strats : List MergeStrategy)
    (callerAttribs : AttrList) (compTree : NodeList) : NodeList :=
  let attrMap := buildAttrMap callerAttribs
  let marked := applyMarkersL strats attrMap compTree
  match marked.2, lookupBucket attrMap "" with
  | false, some bucket => updateFirstTag strats bucket marked.1
  | _, _ => marked.1

mutual
/-- No element of the tree carries the `attr` marker with the
empty-string (default-bucket) value. -/
def noDefaultMarkerN : HNode → Bool
  | .elem _ a cs =>
      (match getAttr a attrAttrName with
       | some val => ¬ (val = "")
       | none => true) && noDefaultMarkerL cs
  | _ => true

/-- List version of `noDefaultMarkerN`. -/
def noDefaultMarkerL : NodeList → Bool
  | .nil => true
  | .cons n rest => noDefaultMarkerN n && noDefaultMarkerL rest
end

/-! ## Slot / yield content projection (`processNode` lines 378-418) -/

/-- Partition the processed caller children into named fill content and
default yield content.  `yieldContent` stays `none` when every child is
a `fill` element, making yields keep their own default children. -/
def partitionFillsGo : NodeList → List (String × NodeList) → Option NodeList →
    Res (List (String × NodeList) × Option NodeList)
  | .nil, sc, yc => .ok (sc, yc)
  | .cons n rest, sc, yc =>
      match n with
      | .elem t a cs =>
          if t = fillTagName then
            match getAttr a "slot" with
            | none => .err "Fill tag must have a slot attribute"
            | some s =>
                partitionFillsGo rest
                  (match sc.find? (fun p => p.1 = s) with
                   | some _ => sc.map (fun p => if p.1 = s then (p.1, p.2 ++ cs) else p)
                   | none => sc ++ [(s, cs)])
                  yc
          else partitionFillsGo rest sc (some ((yc.getD .nil) ++ one (.elem t a cs)))
      | m => partitionFillsGo rest sc (some ((yc.getD .nil) ++ one m))

def partitionFills (children : NodeList) :
    Res (List (String × NodeList) × Option NodeList) :=
  partitionFillsGo children [] none

def lookupSlot (sc : List (String × NodeList)) (s : String) : Option NodeList :=
  (sc.find? (fun p => p.1 = s)).map (fun p => p.2)

mutual
/-- Replace every `yield` element found in the tree by the yield content
(or its own children when none was supplied).  Content inserted here is
never rescanned — the source iterates a list of yield elements computed
before any insertion. -/
def replaceYieldsN (yc : Option NodeList) : HNode → NodeList
  | .elem t a cs =>
      if t = yieldTagName then yc.getD cs
      else one (.elem t a (replaceYieldsL yc cs))
  | n => one n

def replaceYieldsL (yc : Option NodeList) : NodeList → NodeList
  | .nil => .nil
  | .cons n rest => replaceYieldsN yc n ++ replaceYieldsL yc rest
end

mutual
/-- Replace every `slot` element by the matching named fill content (or
its own children); a slot without a `name` attribute is a fatal error.
As with yields, inserted content is not rescanned. -/
def replaceSlotsN (sc : List (String × NodeList)) : HNode → Res NodeList
  | .elem t a cs =>
      if t = slotTagName then
        match getAttr a "name" with
        | none => .err "Slot tag must have a name attribute"
        | some nm => .ok ((lookupSlot sc nm).getD cs)
      else do
        let cs2 ← replaceSlotsL sc cs
        .ok (one (.elem t a cs2))
  | n => .ok (one n)

def replaceSlotsL (sc : List (String × NodeList)) : NodeList → Res NodeList
  | .nil => .ok .nil
  | .cons n rest => do
      let l1 ← replaceSlotsN sc n
      let l2 ← replaceSlotsL sc rest
      .ok (l1 ++ l2)
end

/-! ## Server scripts (`processNode` lines 320-329)

Top-level `<script server>` elements of the component tree are executed
in order against the component scope (head frame mutated in place; the
`props` proxy may consume caller attributes) and removed.  Execution is
the opaque capability `runScript`. -/

def isServerScript : HNode → Bool
  | .elem t a _ => t = "script" && hasAttr a "server"
  | _ => false

def runServerScriptsGo
    (run : String → Scope → AttrList → Frame × AttrList) (parent : Scope) :
    NodeList → Frame → AttrList → NodeList × Frame × AttrList
  | .nil, fr, ats => (.nil, fr, ats)
  | .cons n rest, fr, ats =>
      if isServerScript n then
        let r := run (innerTextN n) (fr :: parent) ats
        runServerScriptsGo run parent rest r.1 r.2
      else
        let r := runServerScriptsGo run parent rest fr ats
        (.cons n r.1, r.2.1, r.2.2)

/-! ## The tree rewriter (`processTree` / `processNode` / `processConditional`) -/

/-- External capabilities and configuration of one compiler instance. -/
structure Cfg where
  /-- `runInNewContext(code, scope)` used as a pure expression evaluator. -/
  evalExpr : String → Scope → Value
  /-- `runInNewContext` on a `<script server>` body: mutates the head
  frame of the component scope and may consume caller attributes through
  the `props` proxy. -/
  runScript : String → Scope → AttrList → Frame × AttrList
  /-- Resolved component trees by (normalized) name: the constructor
  map, the cache and the filesystem loader combined, post-`parseHtml`. -/
  components : String → Option NodeList
  /-- `attributeMergeStrategies` after `getDefaultOptions`. -/
  strategies : List MergeStrategy

/-- `pre` is a leading piece of `s` (JS `String.prototype.startsWith`,
reimplemented over the character list so that it evaluates in the
kernel). -/
def charsBegin : List Char → List Char → Bool
  | [], _ => true
  | _ :: _, [] => false
  | p :: ps, c :: cs => p = c && charsBegin ps cs

def strBeginsWith (s pre : String) : Bool := charsBegin pre.data s.data

/-- Drop the first `n` characters (JS `String.prototype.slice(n)`). -/
def strDropChars (s : String) (n : Nat) : String := String.mk (s.data.drop n)

/-- `/^\S+$/.test(s)` (ASCII whitespace; the exotic Unicode space
classes of JS `\S` are not modelled). -/
def noWhitespaceStr (s : String) : Bool :=
  ¬ (s.data = []) && s.data.all fun c =>
    ¬ (c = ' ' ∨ c = '\t' ∨ c = '\n' ∨ c = '\r' ∨ c = '\x0b' ∨ c = '\x0c')

/-- `/[a-zA-Z_$][a-zA-Z0-9_$]*/.test(s)`: the regex is unanchored, so
the test succeeds exactly when `s` contains at least one character of
the leading class `[a-zA-Z_$]`. -/
def containsIdentStart (s : String) : Bool :=
  s.data.any fun c => c.isAlpha ∨ c = '_' ∨ c = '$'

def isArrayV : Value → Bool
  | .vArr _ => true
  | _ => false

/-- The removal loop of the truthy conditional case: keep deleting the
next element sibling (skipping non-element nodes, which stay in place)
while it is an `elseif` or `else`; stop at the first other element. -/
def dropChainElems : NodeList → NodeList
  | .nil => .nil
  | .cons n rest =>
      if isElemNode n then
        if tagOf n = "elseif" ∨ tagOf n = "else" then dropChainElems rest
        else .cons n rest
      else .cons n (dropChainElems rest)

/-- `nextElementSibling`: split off the leading non-element nodes and
return the first element with what follows it, when one exists. -/
def splitAtFirstElem : NodeList → NodeList × Option (HNode × NodeList)
  | .nil => (.nil, none)
  | .cons n rest =>
      if isElemNode n then (.nil, some (n, rest))
      else
        let r := splitAtFirstElem rest
        (.cons n r.1, r.2)

/-- A `case` child that can win the switch: it has a `case` attribute,
no `default` attribute, and its evaluated `case` is strictly equal to
the switch value. -/
def caseWins (cfg : Cfg) (scope : Scope) (evRes : Value) : HNode → Bool
  | .elem _ a _ =>
      hasAttr a "case" && ¬ hasAttr a "default"
        && jsStrictEq (cfg.evalExpr ((getAttr a "case").getD "") scope) evRes
  | _ => false

/-- The default `case` child: marked `default` and lacking `case`. -/
def caseIsDefault : HNode → Bool
  | .elem _ a _ => hasAttr a "default" && ¬ hasAttr a "case"
  | _ => false

/-- The different activation records of the mutually recursive rewriter:
the `processTree` cursor loop, `processNode` on the node at the cursor,
`processConditional` on a chain element with its following siblings, and
the body of the `for` iteration.  All return the updated sibling list
(for `tree`, the final list with second component `0`) together with the
number of sibling slots the processed node was replaced by. -/
inductive RCall where
  | tree (nodes : NodeList) (cursor : Nat) (scope : Scope)
  | node (nodes : NodeList) (cursor : Nat) (scope : Scope)
  | cond (el : HNode) (rest : NodeList) (scope : Scope)
  | forIter (item : String) (values : ValueArr) (children : NodeList) (scope : Scope)

/-- The rewriting engine, translated from `processTree` (cursor loop),
`processNode` (dispatch: text evaluation, attribute evaluation, dynamic
tags, conditionals, switch/case, loops, components, default recursion)
and `processConditional`.  The fuel argument makes the embedding total;
the source recursion is genuinely unbounded (self-referential components
have no cycle guard), and `Res.fuelOut` reports exhaustion. -/
def rewriteRun (cfg : Cfg) : Nat → RCall → Res (NodeList × Nat)
  | 0, _ => .fuelOut
  | Nat.succ f, .tree nodes cursor scope =>
      -- while (tree[cursor]) { cursor += await this.processNode(...) }
      match nodes.get? cursor with
      | none => .ok (nodes, 0)
      | some _ => do
          let r ← rewriteRun cfg f (.node nodes cursor scope)
          rewriteRun cfg f (.tree r.1 (cursor + r.2) scope)
  | Nat.succ f, .node nodes cursor proto =>
      match nodes.get? cursor with
      | none => .ok (nodes, 1)
      | some n =>
        -- const scope = Object.create(prototypeScope)
        let scope := pushFrame proto
        match n with
        | .text d =>
            .ok (nodes.set cursor (.text (evalTextStr cfg.evalExpr scope d)), 1)
        | .comment _ => .ok (nodes, 1)
        | .elem tag attribs0 children =>
          -- evaluate eval:-prefixed attributes first
          let attribs := processAttribs cfg.evalExpr scope attribs0
          if tag = dynamicTagName then
            match getAttr attribs "tag" with
            | none => .err "Dynamic tag must have a tag attribute"
            | some tagExpr => do
                let r := cfg.evalExpr tagExpr scope
                let inner ← rewriteRun cfg f (.tree children 0 scope)
                match r with
                | .vNull => .ok (nlSplice nodes cursor inner.1, inner.1.length)
                | .vBool false => .ok (nlSplice nodes cursor inner.1, inner.1.length)
                | .vStr s =>
                    if noWhitespaceStr s then
                      .ok (nodes.set cursor (.elem s (delAttr attribs "tag") inner.1), 1)
                    else .err "Dynamic tag tag attribute must evaluate to a string (with no spaces), nullish, or false."
                | _ => .err "Dynamic tag tag attribute must evaluate to a string (with no spaces), nullish, or false."
          else if tag = "if" then do
            let r ← rewriteRun cfg f
              (.cond (.elem tag attribs children) (nodes.drop (cursor + 1)) scope)
            .ok (nodes.take cursor ++ r.1, r.2)
          else if tag = "elseif" then .err "Unexpected elseif"
          else if tag = "else" then .err "Unexpected else"
          else if tag = "switch" then
            match getAttr attribs "value" with
            | none => .err "Switch tag must have a value attribute"
            | some valExpr =>
              let evRes := cfg.evalExpr valExpr scope
              let caseChildren := children.filter (isTagNamed "case")
              let winner :=
                match caseChildren.find? (caseWins cfg scope evRes) with
                | some w => some w
                | none => caseChildren.find? caseIsDefault
              match winner with
              | none => .ok (nlRemoveAt nodes cursor, 0)
              | some w => do
                  let inner ← rewriteRun cfg f (.tree (childrenOf w) 0 scope)
                  .ok (nlSplice nodes cursor inner.1, inner.1.length)
          else if tag = "for" then
            match getAttr attribs "item", getAttr attribs "in" with
            | some item, some inExpr =>
                if containsIdentStart item then
                  match cfg.evalExpr inExpr scope with
                  | .vArr vs => do
                      let scope1 := scopeSet scope "__array" (.vArr vs)
                      let bodies ← rewriteRun cfg f (.forIter item vs children scope1)
                      .ok (nlSplice nodes cursor bodies.1, bodies.2)
                  | _ => .err "For tag in attribute must evaluate to an array"
                else .err "For tag item attribute must be a valid identifier"
            | _, _ => .err "For tag must have item and in attributes"
          else if strBeginsWith tag componentTagStart ∨ tag = componentTagName then do
            let nameAndAttribs ←
              if tag = componentTagName then
                match getAttr attribs "name" with
                | none => Res.err "Component tag must have a name attribute"
                | some nm => Res.ok (nm, delAttr attribs "name")
              else Res.ok (strDropChars tag componentTagStart.data.length, attribs)
            match cfg.components nameAndAttribs.1 with
            | none => .err ("Component not found: " ++ nameAndAttribs.1)
            | some compTree => do
                let scripted :=
                  runServerScriptsGo cfg.runScript scope compTree [] nameAndAttribs.2
                let comp1 ← rewriteRun cfg f (.tree scripted.1 0 (scripted.2.1 :: scope))
                let comp2 := passAttributesToComponent cfg.strategies scripted.2.2 comp1.1
                let callerChildren ← rewriteRun cfg f (.tree children 0 scope)
                let parts ← partitionFills callerChildren.1
                let comp3 := replaceYieldsL parts.2 comp2
                let comp4 ← replaceSlotsL parts.1 comp3
                .ok (nlSplice nodes cursor comp4, comp4.length)
          else do
            let inner ← rewriteRun cfg f (.tree children 0 scope)
            .ok (nodes.set cursor (.elem tag attribs inner.1), 1)
  | Nat.succ f, .cond el rest scope =>
      match el with
      | .elem tg attribs children => do
          let doesMatch ←
            if tg = "if" ∨ tg = "elseif" then
              match getAttr attribs "condition" with
              | none => Res.err "Conditional tag must have a condition attribute"
              | some c => Res.ok (truthy (cfg.evalExpr c scope))
            else if tg = "else" then Res.ok true
            else Res.err ("evaludateConditional called on invalid tag: " ++ tg)
          if doesMatch then do
            let inner ← rewriteRun cfg f (.tree children 0 scope)
            .ok (inner.1 ++ dropChainElems rest, inner.1.length)
          else
            match splitAtFirstElem rest with
            | (pre, some (sib, post)) =>
                if tagOf sib = "elseif" ∨ tagOf sib = "else" then do
                  let sub ← rewriteRun cfg f (.cond sib post scope)
                  .ok (pre ++ sub.1, sub.2)
                else .ok (rest, 0)
            | (_, none) => .ok (rest, 0)
      | n => .err ("evaludateConditional called on invalid tag: " ++ tagOf n)
  | Nat.succ f, .forIter item values children scope =>
      match values with
      | .nil => .ok (.nil, 0)
      | .cons v rest => do
          -- scope[item] = v; clone the body; process; prepend in order
          let scopeI := scopeSet scope item v
          let body ← rewriteRun cfg f (.tree children 0 scopeI)
          let more ← rewriteRun cfg f (.forIter item rest children scope)
          .ok (body.1 ++ more.1, body.1.length + more.2)

/-- `processTree(tree, scope)`. -/
def processTree (cfg : Cfg) (fuel : Nat) (nodes : NodeList) (scope : Scope) :
    Res (NodeList × Nat) :=
  rewriteRun cfg fuel (.tree nodes 0 scope)

/-- `processNode(tree[cursor], scope)`, returning the updated sibling
list and the cursor advance. -/
def processNode (cfg : Cfg) (fuel : Nat) (nodes : NodeList) (cursor : Nat)
    (scope : Scope) : Res (NodeList × Nat) :=
  rewriteRun cfg fuel (.node nodes cursor scope)

/-- `processConditional(el, scope)` with `rest` the siblings following
`el`, returning the new sibling region and the inserted count. -/
def processConditional (cfg : Cfg) (fuel : Nat) (el : HNode) (rest : NodeList)
    (scope : Scope) : Res (NodeList × Nat) :=
  rewriteRun cfg fuel (.cond el rest scope)

/-! ## Stack processing (`processStacks`, lines 489-588) -/

/-- Per-stack accumulator: ordered content and the set of seen ids
(`stackInfo` in the source), keyed by stack name. -/
abbrev StackInfo := List (String × (List HNode × List String))

/-- Absorb the children of one `push` element into a stack bucket: an
element child whose `id` was already seen for this stack is skipped;
otherwise it is appended (recording the id when present).  Children
without an `id` attribute — including non-element children — are always
appended. -/
def collectPushChildren : NodeList → List HNode × List String →
    List HNode × List String
  | .nil, acc => acc
  | .cons (.text d) rest, acc =>
      collectPushChildren rest (acc.1 ++ [.text d], acc.2)
  | .cons (.comment d) rest, acc =>
      collectPushChildren rest (acc.1 ++ [.comment d], acc.2)
  | .cons (.elem t a cs) rest, acc =>
      match getAttr a "id" with
      | some id =>
          if id ∈ acc.2 then collectPushChildren rest acc
          else collectPushChildren rest (acc.1 ++ [.elem t a cs], acc.2 ++ [id])
      | none => collectPushChildren rest (acc.1 ++ [.elem t a cs], acc.2)

def lookupStack (info : StackInfo) (name : String) :
    Option (List HNode × List String) :=
  (info.find? (fun p => p.1 = name)).map (fun p => p.2)

def setStack (info : StackInfo) (name : String)
    (v : List HNode × List String) : StackInfo :=
  match info with
  | [] => [(name, v)]
  | (n0, v0) :: rest =>
      if n0 = name then (name, v) :: rest else (n0, v0) :: setStack rest name v

/-- Fold the precomputed list of `push` elements (in `findElements`
order) into the stack accumulators; a `push` without a `stack`
attribute is a fatal error. -/
def collectStacksGo : NodeList → StackInfo → Res StackInfo
  | .nil, info => .ok info
  | .cons (.text _) rest, info => collectStacksGo rest info
  | .cons (.comment _) rest, info => collectStacksGo rest info
  | .cons (.elem _ a cs) rest, info =>
      match getAttr a "stack" with
      | none => .err "Push tag must have a stack attribute"
      | some name =>
          collectStacksGo rest
            (setStack info name
              (collectPushChildren cs ((lookupStack info name).getD ([], []))))

/-- First pass of `processStacks`: all `push` elements of the tree, in
`findElements` order, absorbed into named buckets. -/
def stackContents (tree : NodeList) : Res StackInfo :=
  collectStacksGo (findNodesLayered (isTagNamed pushTagName) tree) []

/-- The children pushed to one stack name, flattened in the collection
traversal order (before de-duplication). -/
def pushChildrenFor (name : String) : NodeList → List HNode
  | .nil => []
  | .cons (.text _) rest => pushChildrenFor name rest
  | .cons (.comment _) rest => pushChildrenFor name rest
  | .cons (.elem _ a cs) rest =>
      (if getAttr a "stack" = some name then cs.toList else [])
        ++ pushChildrenFor name rest

def pushedStream (tree : NodeList) (name : String) : List HNode :=
  pushChildrenFor name (findNodesLayered (isTagNamed pushTagName) tree)

mutual
/-- Second pass: replace every `stack` element by a clone of the
accumulated content for its name (empty when nothing was pushed); a
`stack` without `name` is fatal.  Replacement content is not rescanned
(the source iterates a precomputed element list), and `stack` elements
nested inside a replaced `stack` element are simply discarded with it
(the source would still run the `name` check on them while detached;
that corner is not modelled). -/
def replaceStacksN (info : StackInfo) : HNode → Res NodeList
  | .elem t a cs =>
      if t = stackTagName then
        match getAttr a "name" with
        | none => .err "Stack tag must have a name attribute"
        | some nm => .ok (ofList (((lookupStack info nm).map (fun v => v.1)).getD []))
      else do
        let cs2 ← replaceStacksL info cs
        .ok (one (.elem t a cs2))
  | n => .ok (one n)

def replaceStacksL (info : StackInfo) : NodeList → Res NodeList
  | .nil => .ok .nil
  | .cons n rest => do
      let l1 ← replaceStacksN info n
      let l2 ← replaceStacksL info rest
      .ok (l1 ++ l2)
end

/-! ## Title relocation (lines 527-587) -/

/-- The top-level matches of a sibling list, paired with depth `d`. -/
def pairsAt (p : HNode → Bool) (l : NodeList) (d : Nat) : List (HNode × Nat) :=
  (l.filter p).toList.map (fun n => (n, d))

mutual
/-- Matches strictly inside one node situated at depth `d`, in
`findNodes` (layered) order, paired with their depths (the source
computes depths by walking parent links up to the body). -/
def layeredDeepN (p : HNode → Bool) : HNode → Nat → List (HNode × Nat)
  | .elem _ _ cs, d => pairsAt p cs (d + 1) ++ layeredDeepL p cs (d + 1)
  | _, _ => []

def layeredDeepL (p : HNode → Bool) : NodeList → Nat → List (HNode × Nat)
  | .nil, _ => []
  | .cons n rest, d => layeredDeepN p n d ++ layeredDeepL p rest d
end

/-- All matches of the tree with their depths, in the layered
`findNodes` order in which the source visits them. -/
def layeredWithDepth (p : HNode → Bool) (l : NodeList) (d : Nat) :
    List (HNode × Nat) :=
  pairsAt p l d ++ layeredDeepL p l d

mutual
/-- All matches with their depths in document pre-order (used to state
the tie-breaking order of the winning title). -/
def preorderWithDepthN (p : HNode → Bool) : HNode → Nat → List (HNode × Nat)
  | .elem t a cs, d =>
      (if p (.elem t a cs) then [(.elem t a cs, d)] else [])
        ++ preorderWithDepthL p cs (d + 1)
  | n, d => if p n then [(n, d)] else []

def preorderWithDepthL (p : HNode → Bool) : NodeList → Nat → List (HNode × Nat)
  | .nil, _ => []
  | .cons n rest, d => preorderWithDepthN p n d ++ preorderWithDepthL p rest d
end

/-- One step of the `depth >= deepestDepth` selection loop. -/
def pickStep (acc : Option (HNode × Nat)) (td : HNode × Nat) :
    Option (HNode × Nat) :=
  match acc with
  | none => some td
  | some best => if best.2 ≤ td.2 then some td else some best

/-- The `depth >= deepestDepth` selection loop: starting from
`-Infinity`, keep the latest visited entry whose depth is at least the
best so far — i.e. the last entry of maximal depth in visiting order. -/
def pickDeepest (l : List (HNode × Nat)) : Option (HNode × Nat) :=
  l.foldl pickStep none

/-- The entry sits at exactly this depth. -/
def atDepth (D : Nat) (e : HNode × Nat) : Bool := e.2 = D

/-- Process one `html` element (lines 530-578): when it has a `body`
child containing titles, remove every title inside that body, pick the
winner (deepest, ties to the last visited), and install a clone of it —
appended to the existing `head` child (after stripping its titles), or
as a freshly synthesized first `head` child. -/
def handleHtmlEl (hChildren : NodeList) : NodeList :=
  match hChildren.find? (isTagNamed "body") with
  | some (.elem bt ba bcs) =>
      (match pickDeepest (layeredWithDepth (isTagNamed "title") bcs 0) with
       | none => hChildren
       | some wd =>
           let newBody : HNode := .elem bt ba (removeByTagL "title" bcs)
           let ch1 := hChildren.updateFirst (isTagNamed "body") (fun _ => newBody)
           match ch1.find? (isTagNamed "head") with
           | some (.elem ht ha hcs) =>
               ch1.updateFirst (isTagNamed "head")
                 (fun _ => .elem ht ha (removeByTagL "title" hcs ++ one wd.1))
           | _ => .cons (.elem "head" [] (one wd.1)) ch1)
  | _ => hChildren

mutual
/-- Apply `handleHtmlEl` to every `html` element that is not itself
nested inside another `html` element.  The source would also revisit
`html` elements nested inside an already-processed one (it iterates a
precomputed list); that nested-`html` corner is not modelled. -/
def processHtmlN : HNode → HNode
  | .elem t a cs =>
      if t = "html" then .elem t a (handleHtmlEl cs)
      else .elem t a (processHtmlL cs)
  | n => n

def processHtmlL : NodeList → NodeList
  | .nil => .nil
  | .cons n rest => .cons (processHtmlN n) (processHtmlL rest)
end

/-- `titleBehaviorInPartial` option. -/
inductive TitleBehavior where
  | preserve
  | remove
  deriving DecidableEq

/-- Title handling stage (lines 527-587): document-mode relocation for
every `html` element, then — in partial mode (`remove` configured and no
`html` element anywhere in the tree) — removal of every `title`
element. -/
def titleStage (behavior : TitleBehavior) (tree : NodeList) : NodeList :=
  let t3 := processHtmlL tree
  if behavior = .remove ∧ (findNodesLayered (isTagNamed "html") tree).isEmpty
  then removeByTagL "title" t3
  else t3

/-- `processStacks(tree)`: collect pushes, remove the `push` elements,
substitute the `stack` placeholders, then handle titles. -/
def processStacks (behavior : TitleBehavior) (tree : NodeList) : Res NodeList := do
  let info ← stackContents tree
  let t1 := removeByTagL pushTagName tree
  let t2 ← replaceStacksL info t1
  .ok (titleStage behavior t2)

mutual
/-- Does any element with this tag occur anywhere in the tree? -/
def containsTagN (t : String) : HNode → Bool
  | .elem tn _ cs => tn = t || containsTagL t cs
  | _ => false

def containsTagL (t : String) : NodeList → Bool
  | .nil => false
  | .cons n rest => containsTagN t n || containsTagL t rest
end

/-! ## Predicates used to state the claims -/

/-- Tags on which `processNode` dispatches away from the default
recursive branch (component references included via their prefix). -/
def isRewriteTag (t : String) : Bool :=
  t = dynamicTagName || t = "if" || t = "elseif" || t = "else" || t = "switch"
    || t = "for" || t = componentTagName || strBeginsWith t componentTagStart

mutual
/-- A tree with no work left for the rewriter: no dispatched construct
tag, no `eval:`-prefixed attribute, and no text matching the content
evaluation pattern.  (`yield`/`slot`/`fill`/`push`/`stack` tags are
inert in `processNode` and may appear.) -/
def plainN : HNode → Bool
  | .text d => ! textHasPattern d.data
  | .comment _ => true
  | .elem t a cs => ! isRewriteTag t && noEvalAttrs a && plainL cs

def plainL : NodeList → Bool
  | .nil => true
  | .cons n rest => plainN n && plainL rest
end

/-- Modelled from the spec: a "valid identifier" — a leading
`[a-zA-Z_$]` character followed only by `[a-zA-Z0-9_$]` characters —
which is what the spec requires of the `item` attribute of a `for` tag.
The source only tests the unanchored regex (`containsIdentStart`). -/
def specValidIdentifier (s : String) : Bool :=
  match s.data with
  | [] => false
  | c :: rest =>
      (c.isAlpha ∨ c = '_' ∨ c = '$')
        && rest.all (fun d => d.isAlphanum ∨ d = '_' ∨ d = '$')

/-- The truthiness of a branch's `condition` attribute under a scope
(`none` when the attribute is missing). -/
def condTruthy (cfg : Cfg) (scope : Scope) (a : AttrList) : Option Bool :=
  (getAttr a "condition").map (fun c => truthy (cfg.evalExpr c scope))

/-- Modelled from the spec: the branch an `if`/`elseif*`/`else?` chain
chooses — the children of the first branch whose condition evaluates
truthy, else the `else` children when present, else nothing. -/
def chainChoose (cfg : Cfg) (scope : Scope) :
    List (AttrList × NodeList) → Option (AttrList × NodeList) → Option NodeList
  | [], none => none
  | [], some e => some e.2
  | b :: rest, eo =>
      if condTruthy cfg scope b.1 = some true then some b.2
      else chainChoose cfg scope rest eo

/-- The `elseif` elements of a chain, from their attribute/children
pairs. -/
def elseifNodes : List (AttrList × NodeList) → NodeList
  | [] => .nil
  | b :: rest => .cons (.elem "elseif" b.1 b.2) (elseifNodes rest)

/-- The optional trailing `else` element of a chain. -/
def elseNodeOpt : Option (AttrList × NodeList) → NodeList
  | none => .nil
  | some e => one (.elem "else" e.1 e.2)

/-- The siblings after a conditional chain do not continue it: the first
element among them (skipping non-element nodes, as `nextElementSibling`
does) is neither `elseif` nor `else`. -/
def tailStopsChain : NodeList → Bool
  | .nil => true
  | .cons n rest =>
      if isElemNode n then ¬ (tagOf n = "elseif" ∨ tagOf n = "else")
      else tailStopsChain rest

/-- No node of the list is an eligible target for the default attribute
bucket (every element is a `script` or `style`). -/
def noEligible : NodeList → Bool
  | .nil => true
  | .cons n rest =>
      (match n with
       | .elem tn _ _ => tn = "script" ∨ tn = "style"
       | _ => true) && noEligible rest

/-- The node is an element carrying `id` equal to the given value. -/
def hasId (n : HNode) (i : String) : Bool :=
  match n with
  | .elem _ a _ => getAttr a "id" = some i
  | _ => false

/-- The node is an element with an `id` attribute (of any value). -/
def hasSomeId : HNode → Bool
  | .elem _ a _ => hasAttr a "id"
  | _ => false

/-- The node is skipped by the default-bucket fallback scan: either it
is not an element, or its tag is `script` or `style`. -/
def skipsAttrTarget : HNode → Bool
  | .elem t _ _ => t = "script" || t = "style"
  | _ => true

/-- Every node of the list is skipped by the default-bucket fallback
scan. -/
def skipsAttrTargetL : NodeList → Bool
  | .nil => true
  | .cons n rest => skipsAttrTarget n && skipsAttrTargetL rest

/-! ## A concrete evaluator and configuration for witnesses

An instance of the external evaluation capability: a finite table of
expression strings (plus variable lookup), standing in for
`runInNewContext`. -/

def tableEval : String → Scope → Value := fun code scope =>
  match code with
  | "CTRUE" => .vBool true
  | "CFALSE" => .vBool false
  | "ARR357" => .vArr (ValueArr.ofList [.vNum 3, .vNum 5, .vNum 7])
  | "ARR3" => .vArr (ValueArr.ofList [.vNum 3])
  | "TAGIF" => .vStr "if"
  | "COND1" => .vNum 1
  | " x " => (scopeLookup scope "x").getD .vNull
  | _ => .vNull

def witnessCfg : Cfg where
  evalExpr := tableEval
  runScript := fun _ s a => (s.headD [], a)
  components := fun _ => none
  strategies := configuredStrategies []

/-! # Lemmas and claim theorems -/

theorem bindDef {α β : Type} (r : Res α) (g : α → Res β) :
    (r >>= g) = Res.bind r g := rfl

theorem Res.bind_eq_ok {α β : Type} {r : Res α} {g : α → Res β} {v : β} :
    Res.bind r g = .ok v ↔ ∃ w, r = .ok w ∧ g w = .ok v := by
  cases r <;> simp [Res.bind]

theorem nlSet_self : ∀ {l : NodeList} {i : Nat} {x : HNode},
    l.get? i = some x → l.set i x = l := by
  intro l
  match l with
  | .nil => intro i x h; simp [NodeList.get?] at h
  | .cons n rest =>
      intro i x h
      match i with
      | 0 =>
          simp [NodeList.get?] at h
          simp [NodeList.set, h]
      | Nat.succ j =>
          simp only [NodeList.get?] at h
          simp [NodeList.set, nlSet_self h]

theorem plainL_get : ∀ {l : NodeList} {i : Nat} {n : HNode},
    plainL l = true → l.get? i = some n → plainN n = true := by
  intro l
  match l with
  | .nil => intro i n _ h; simp [NodeList.get?] at h
  | .cons m rest =>
      intro i n hp h
      simp only [plainL, Bool.and_eq_true] at hp
      match i with
      | 0 =>
          simp only [NodeList.get?, Option.some.injEq] at h
          exact h ▸ hp.1
      | Nat.succ j =>
          simp only [NodeList.get?] at h
          exact plainL_get hp.2 h

theorem processAttribsGo_id {ev : String → Scope → Value} {scope : Scope}
    {snap : List (String × String)} (cur : AttrList)
    (h : snap.all (fun kv =>
      match colonMatch2 kv.1 with
      | some (seg0, _) => ! (seg0 = evalAttrMarker)
      | none => true) = true) :
    processAttribsGo ev scope snap cur = cur := by
  induction snap generalizing cur with
  | nil => rfl
  | cons kv rest ih =>
      simp only [List.all_cons, Bool.and_eq_true] at h
      rcases hm : colonMatch2 kv.1 with _ | ⟨seg0, seg1⟩
      · simpa [processAttribsGo, hm] using ih cur h.2
      · have h0 : ¬ (seg0 = evalAttrMarker) := by
          have h1 := h.1
          rw [hm] at h1
          simpa using h1
        simpa [processAttribsGo, hm, h0] using ih cur h.2

theorem processAttribs_id {ev : String → Scope → Value} {scope : Scope}
    {a : AttrList} (h : noEvalAttrs a = true) :
    processAttribs ev scope a = a :=
  processAttribsGo_id a h

theorem evalTextGo_id {ev : String → Scope → Value} {scope : Scope} :
    ∀ (f : Nat) (cs : List Char), textHasPattern cs = false →
      evalTextGo ev scope f cs = cs := by
  intro f
  induction f with
  | zero => intro cs _; rfl
  | succ f ih =>
      intro cs h
      match cs with
      | [] => rfl
      | [c1] => rfl
      | c1 :: c2 :: rest2 =>
          rw [textHasPattern] at h
          rw [evalTextGo]
          by_cases hpc : c1 = '%' ∧ c2 = '%'
          · rw [if_pos hpc] at h ⊢
            rcases hf : findClose rest2 with _ | p
            · rw [hf] at h
              rw [ih _ h]
            · rw [hf] at h
              exact absurd h (by simp)
          · rw [if_neg hpc] at h ⊢
            rw [ih _ h]

theorem evalTextStr_id {ev : String → Scope → Value} {scope : Scope}
    {s : String} (h : textHasPattern s.data = false) :
    evalTextStr ev scope s = s := by
  cases s with
  | mk data => simp [evalTextStr, evalTextGo_id _ _ h]

/-- The cursor loop always reports advance `0` to its caller. -/
theorem treeRes_snd_zero (cfg : Cfg) :
    ∀ (f : Nat) {nodes : NodeList} {cursor : Nat} {scope : Scope}
      {r : NodeList × Nat},
      rewriteRun cfg f (.tree nodes cursor scope) = .ok r → r.2 = 0 := by
  intro f
  induction f with
  | zero => intro nodes cursor scope r h; simp [rewriteRun] at h
  | succ f ih =>
      intro nodes cursor scope r h
      rcases hget : nodes.get? cursor with _ | n
      · simp only [rewriteRun, hget, Res.ok.injEq] at h
        rw [← h]
      · simp only [rewriteRun, hget, bindDef, Res.bind_eq_ok] at h
        obtain ⟨w, _, h2⟩ := h
        exact ih h2

/-- Fixed-point core: on a tree with no rewriter work (`plainL`), every
successful run of the cursor loop returns the tree unchanged, and every
successful node dispatch returns the unchanged sibling list with
advance 1. -/
theorem plainFixAux (cfg : Cfg) : ∀ f : Nat,
    (∀ nodes cursor scope (r : NodeList × Nat), plainL nodes = true →
        rewriteRun cfg f (.tree nodes cursor scope) = .ok r → r.1 = nodes) ∧
    (∀ nodes cursor scope (r : NodeList × Nat), plainL nodes = true →
        rewriteRun cfg f (.node nodes cursor scope) = .ok r → r = (nodes, 1)) := by
  intro f
  induction f with
  | zero =>
      constructor <;> (intro nodes cursor scope r hp h; simp [rewriteRun] at h)
  | succ f ih =>
      constructor
      · intro nodes cursor scope r hp h
        rcases hget : nodes.get? cursor with _ | n
        · simp only [rewriteRun, hget, Res.ok.injEq] at h
          rw [← h]
        · simp only [rewriteRun, hget, bindDef, Res.bind_eq_ok] at h
          obtain ⟨w, h1, h2⟩ := h
          have hw := ih.2 nodes cursor scope w hp h1
          rw [hw] at h2
          exact ih.1 nodes (cursor + 1) scope r hp h2
      · intro nodes cursor scope r hp h
        rcases hget : nodes.get? cursor with _ | n
        · simp only [rewriteRun, hget, Res.ok.injEq] at h
          exact h.symm
        · have hn := plainL_get hp hget
          match n with
          | .text d =>
              simp only [rewriteRun, hget] at h
              simp only [plainN, Bool.not_eq_true'] at hn
              rw [evalTextStr_id hn, nlSet_self hget] at h
              simp only [Res.ok.injEq] at h
              exact h.symm
          | .comment d =>
              simp only [rewriteRun, hget, Res.ok.injEq] at h
              exact h.symm
          | .elem t a cs =>
              simp only [rewriteRun, hget] at h
              simp only [plainN, Bool.and_eq_true, Bool.not_eq_true'] at hn
              obtain ⟨⟨htag, hattr⟩, hcs⟩ := hn
              simp only [isRewriteTag, Bool.or_eq_false_iff] at htag
              obtain ⟨⟨⟨⟨⟨⟨⟨t1, t2⟩, t3⟩, t4⟩, t5⟩, t6⟩, t7⟩, t8⟩ := htag
              simp only [decide_eq_false_iff_not] at t1 t2 t3 t4 t5 t6 t7
              rw [Bool.eq_false_iff] at t8
              rw [processAttribs_id hattr] at h
              rw [if_neg t1, if_neg t2, if_neg t3, if_neg t4, if_neg t5,
                if_neg t6] at h
              rw [if_neg (by
                intro hc
                rcases hc with hc | hc
                · exact t8 (by simpa using hc)
                · exact t7 hc)] at h
              rw [bindDef, Res.bind_eq_ok] at h
              obtain ⟨w, h1, h2⟩ := h
              have hw := ih.1 cs 0 (pushFrame scope) w hcs h1
              rw [hw] at h2
              rw [nlSet_self hget] at h2
              simp only [Res.ok.injEq] at h2
              exact h2.symm

/-- C4 (amended), main theorem: the rewriter is the identity on every
tree that contains none of the dispatched construct tags (`if`,
`elseif`, `else`, `switch`, `for`, `dynamic`, `component`, `x-`-prefixed
components), no `eval:`-prefixed attribute and no text matching the
content-evaluation pattern — whenever a run of `processTree` on such a
tree succeeds, it returns the tree unchanged.  (The first pass does
not guarantee its output has this form; see the counterexample.) -/
theorem rewriterIdOnExpandedTrees (cfg : Cfg) (f : Nat) (nodes : NodeList)
    (scope : Scope) (out : NodeList) (k : Nat)
    (hp : plainL nodes = true)
    (h : processTree cfg f nodes scope = .ok (out, k)) : out = nodes :=
  (plainFixAux cfg f).1 nodes 0 scope (out, k) hp h

/-- Witness for `rewriterIdOnExpandedTrees` at a concrete plain tree. -/
theorem rewriterIdOnExpandedTreesWitness :
    ∃ out k, processTree witnessCfg 4
        (one (.elem "div" [("a", "b")] (one (.text "hi")))) [] = .ok (out, k)
      ∧ out = one (.elem "div" [("a", "b")] (one (.text "hi"))) := by
  refine ⟨one (.elem "div" [("a", "b")] (one (.text "hi"))), 0, rfl, ?_⟩
  exact rewriterIdOnExpandedTrees witnessCfg 4 _ [] _ 0 (by rfl) (by rfl)

/-- C4 counterexample: a `dynamic` tag whose `tag` attribute evaluates
to the string "if" leaves an `if` construct tag in the fully expanded
output, and running the rewriter again on that output unwraps it —
expansion is neither construct-free nor idempotent.  (`tableEval` maps
"TAGIF" to the string "if" and "COND1" to the number 1.) -/
theorem expansionNotIdempotentCounterexample :
    processTree witnessCfg 10
        (one (.elem "dynamic" [("tag", "TAGIF"), ("condition", "COND1")]
          (one (.text "A")))) []
      = .ok (one (.elem "if" [("condition", "COND1")] (one (.text "A"))), 0)
    ∧ processTree witnessCfg 10
        (one (.elem "if" [("condition", "COND1")] (one (.text "A")))) []
      = .ok (one (.text "A"), 0)
    ∧ ¬ (one (.elem "if" [("condition", "COND1")] (one (.text "A")))
          = one (.text "A"))
    ∧ isRewriteTag "if" = true := by
  refine ⟨rfl, rfl, ?_, rfl⟩
  simp [one]

/-! ## C7: errors of the `for` tag -/

/-- C7 (amended): the whole compile fails with an error for every `for`
element that lacks the `item` or the `in` attribute, for every `for`
element whose `item` attribute contains no identifier-start character
`[a-zA-Z_$]` (the unanchored regex of the source accepts any value
containing at least one such character, not only valid identifiers),
and for every `for` element whose `in` attribute evaluates to a
non-array. -/
theorem forTagErrors (cfg : Cfg) (f : Nat) (proto : Scope) :
    (∀ (attribs : AttrList) (cs rest : NodeList),
        noEvalAttrs attribs = true →
        (getAttr attribs "item" = none ∨ getAttr attribs "in" = none) →
        processTree cfg (f + 2) (.cons (.elem "for" attribs cs) rest) proto
          = .err "For tag must have item and in attributes")
  ∧ (∀ (attribs : AttrList) (cs rest : NodeList) (item inExpr : String),
        noEvalAttrs attribs = true →
        getAttr attribs "item" = some item →
        getAttr attribs "in" = some inExpr →
        containsIdentStart item = false →
        processTree cfg (f + 2) (.cons (.elem "for" attribs cs) rest) proto
          = .err "For tag item attribute must be a valid identifier")
  ∧ (∀ (attribs : AttrList) (cs rest : NodeList) (item inExpr : String),
        noEvalAttrs attribs = true →
        getAttr attribs "item" = some item →
        getAttr attribs "in" = some inExpr →
        containsIdentStart item = true →
        isArrayV (cfg.evalExpr inExpr (pushFrame proto)) = false →
        processTree cfg (f + 2) (.cons (.elem "for" attribs cs) rest) proto
          = .err "For tag in attribute must evaluate to an array") := by
  refine ⟨?_, ?_, ?_⟩
  · intro attribs cs rest hne hmiss
    simp only [processTree, rewriteRun, NodeList.get?, bindDef]
    simp only [processAttribs_id hne]
    rcases hmiss with hm | hm
    · simp [hm, Res.bind, dynamicTagName, componentTagName, componentTagStart,
        strBeginsWith, charsBegin]
    · rcases hi : getAttr attribs "item" with _ | item
      · simp [hi, Res.bind, dynamicTagName, componentTagName, componentTagStart,
          strBeginsWith, charsBegin]
      · simp [hi, hm, Res.bind, dynamicTagName, componentTagName,
          componentTagStart, strBeginsWith, charsBegin]
  · intro attribs cs rest item inExpr hne hitem hin hnoid
    simp only [processTree, rewriteRun, NodeList.get?, bindDef]
    simp only [processAttribs_id hne]
    simp [hitem, hin, hnoid, Res.bind, dynamicTagName, componentTagName,
      componentTagStart, strBeginsWith, charsBegin]
  · intro attribs cs rest item inExpr hne hitem hin hid hnarr
    simp only [processTree, rewriteRun, NodeList.get?, bindDef]
    simp only [processAttribs_id hne]
    rcases hv : cfg.evalExpr inExpr (pushFrame proto) with _ | b | nn | s | vs
    · simp [hitem, hin, hid, hv, Res.bind, dynamicTagName, componentTagName,
        componentTagStart, strBeginsWith, charsBegin]
    · simp [hitem, hin, hid, hv, Res.bind, dynamicTagName, componentTagName,
        componentTagStart, strBeginsWith, charsBegin]
    · simp [hitem, hin, hid, hv, Res.bind, dynamicTagName, componentTagName,
        componentTagStart, strBeginsWith, charsBegin]
    · simp [hitem, hin, hid, hv, Res.bind, dynamicTagName, componentTagName,
        componentTagStart, strBeginsWith, charsBegin]
    · rw [hv] at hnarr
      simp [isArrayV] at hnarr

/-- Witness for `forTagErrors`: the three error outcomes at concrete
`for` elements. -/
theorem forTagErrorsWitness :
    processTree witnessCfg 3 (one (.elem "for" [("item", "x")] .nil)) []
      = .err "For tag must have item and in attributes"
  ∧ processTree witnessCfg 3
        (one (.elem "for" [("item", "123"), ("in", "ARR3")] .nil)) []
      = .err "For tag item attribute must be a valid identifier"
  ∧ processTree witnessCfg 3
        (one (.elem "for" [("item", "x"), ("in", "COND1")] .nil)) []
      = .err "For tag in attribute must evaluate to an array" := by
  refine ⟨?_, ?_, ?_⟩
  · exact (forTagErrors witnessCfg 1 []).1 [("item", "x")] .nil .nil rfl
      (Or.inr rfl)
  · exact (forTagErrors witnessCfg 1 []).2.1 [("item", "123"), ("in", "ARR3")]
      .nil .nil "123" "ARR3" rfl rfl rfl rfl
  · exact (forTagErrors witnessCfg 1 []).2.2 [("item", "x"), ("in", "COND1")]
      .nil .nil "x" "COND1" rfl rfl rfl rfl rfl

/-- C7 counterexample: the claim requires compilation to fail whenever
`item` is not a valid identifier, but the source only tests an
unanchored regex — `item="1a"` is not a valid identifier, yet the `for`
tag compiles without error (here with `in` evaluating to a one-element
array and an empty body). -/
theorem forTagInvalidIdentifierAccepted :
    specValidIdentifier "1a" = false
  ∧ processTree witnessCfg 4
        (one (.elem "for" [("item", "1a"), ("in", "ARR3")] .nil)) []
      = .ok (.nil, 0) := ⟨rfl, rfl⟩

/-! ## C6: attribute merge strategy resolution -/

theorem find_first_of_split {α : Type} {p : α → Bool} {l1 l2 : List α} {s : α}
    (h1 : ∀ x ∈ l1, p x = false) (hs : p s = true) :
    (l1 ++ s :: l2).find? p = some s := by
  induction l1 with
  | nil => simp [List.find?, hs]
  | cons x rest ih =>
      have hx := h1 x (by simp)
      simp only [List.cons_append, List.find?, hx]
      exact ih (fun y hy => h1 y (by simp [hy]))

/-- C6 (amended): merging one caller attribute `(k, v)` into an element
resolves its merge function as the first configured strategy whose exact
name equals `k`, else the first configured strategy whose pattern
matches `k`, else plain overwrite; the chosen function's result is
applied as: a string sets the attribute to that string, `true` sets it
empty, and `false` or a nullish result drops the attribute. -/
theorem mergeStrategyResolution (strats : List MergeStrategy)
    (target : AttrList) (k v : String) :
    (∀ (l1 l2 : List MergeStrategy) (m : Option String → String → MergeResult),
        strats = l1 ++ (⟨.byName k, m⟩ : MergeStrategy) :: l2 →
        (∀ s ∈ l1, matcherHitsName s k = false) →
        assignAttributesToElement strats target [(k, v)] =
          match m (getAttr target k) v with
          | .str s => setAttr target k s
          | .bool true => setAttr target k ""
          | .bool false => delAttr target k
          | .nullish => delAttr target k)
  ∧ (∀ (l1 l2 : List MergeStrategy) (s : MergeStrategy),
        (∀ t ∈ strats, matcherHitsName t k = false) →
        strats = l1 ++ s :: l2 →
        matcherHitsPattern s k = true →
        (∀ t ∈ l1, matcherHitsPattern t k = false) →
        assignAttributesToElement strats target [(k, v)] =
          match s.merge (getAttr target k) v with
          | .str s2 => setAttr target k s2
          | .bool true => setAttr target k ""
          | .bool false => delAttr target k
          | .nullish => delAttr target k)
  ∧ ((∀ t ∈ strats,
        matcherHitsName t k = false ∧ matcherHitsPattern t k = false) →
        assignAttributesToElement strats target [(k, v)] = setAttr target k v) := by
  refine ⟨?_, ?_, ?_⟩
  · intro l1 l2 m hsplit h1
    have hfind : strats.find? (fun s => matcherHitsName s k) = some ⟨.byName k, m⟩ := by
      rw [hsplit]
      exact find_first_of_split h1 (by simp [matcherHitsName])
    simp [assignAttributesToElement, hfind]
  · intro l1 l2 s hnone hsplit hp h1
    have hfind1 : strats.find? (fun s => matcherHitsName s k) = none :=
      List.find?_eq_none.mpr (fun x hx => by simp [hnone x hx])
    have hfind2 : strats.find? (fun s => matcherHitsPattern s k) = some s := by
      rw [hsplit]
      exact find_first_of_split h1 hp
    simp [assignAttributesToElement, hfind1, hfind2]
  · intro hnone
    have hfind1 : strats.find? (fun s => matcherHitsName s k) = none :=
      List.find?_eq_none.mpr (fun x hx => by simp [(hnone x hx).1])
    have hfind2 : strats.find? (fun s => matcherHitsPattern s k) = none :=
      List.find?_eq_none.mpr (fun x hx => by simp [(hnone x hx).2])
    simp [assignAttributesToElement, hfind1, hfind2]

/-- Witness for `mergeStrategyResolution`: a concrete exact-name
strategy returning a string. -/
theorem mergeStrategyResolutionWitness :
    assignAttributesToElement
        [⟨.byName "class", fun a b => .str ((a.getD "") ++ b)⟩]
        [("class", "x")] [("class", "y")]
      = [("class", "xy")] := by
  have h := (mergeStrategyResolution
      [⟨.byName "class", fun a b => .str ((a.getD "") ++ b)⟩]
      [("class", "x")] "class" "y").1
      [] [] (fun a b => .str ((a.getD "") ++ b)) rfl (by intro s hs; simp at hs)
  rw [h]
  rfl

/-- C6 counterexample: the claim says a boolean merge result sets the
attribute empty, but the source drops the attribute for `false` (only
`true` sets it empty): with a strategy whose merge returns `false`, the
attribute disappears instead of becoming empty. -/
theorem mergeBooleanFalseCounterexample :
    ((⟨.byName "data-x", fun _ _ => .bool false⟩ : MergeStrategy).merge
        (some "old") "new" = .bool false)
  ∧ assignAttributesToElement
        [⟨.byName "data-x", fun _ _ => .bool false⟩]
        [("data-x", "old")] [("data-x", "new")] = []
  ∧ ¬ (assignAttributesToElement
        [⟨.byName "data-x", fun _ _ => .bool false⟩]
        [("data-x", "old")] [("data-x", "new")] = [("data-x", "")]) := by
  refine ⟨rfl, rfl, ?_⟩
  decide

/-! ## Tag-absence lemmas -/

theorem nlNil_append (l : NodeList) : NodeList.nil ++ l = l := rfl

theorem nlCons_append (n : HNode) (a b : NodeList) :
    (NodeList.cons n a) ++ b = .cons n (a ++ b) := rfl

theorem nlAppend_nil : ∀ (l : NodeList), l ++ NodeList.nil = l := by
  intro l
  match l with
  | .nil => rfl
  | .cons n rest =>
      rw [nlCons_append, nlAppend_nil rest]

theorem nlAppend_eq_nil {a b : NodeList} :
    (a ++ b) = NodeList.nil ↔ a = .nil ∧ b = .nil := by
  cases a with
  | nil =>
      constructor
      · intro h; exact ⟨rfl, h⟩
      · intro h; exact h.2
  | cons n rest =>
      constructor
      · intro h
        exact absurd h (by
          show ¬ (NodeList.append (.cons n rest) b = .nil)
          simp [NodeList.append])
      · intro h; exact absurd h.1 (by simp)

mutual
theorem noTagN_iff (t : String) (n : HNode) :
    containsTagN t n = false ↔
      (isTagNamed t n = false ∧ findDeeperN (isTagNamed t) n = .nil) := by
  cases n with
  | text d => simp [containsTagN, isTagNamed, findDeeperN]
  | comment d => simp [containsTagN, isTagNamed, findDeeperN]
  | elem tn a cs =>
      rw [containsTagN, isTagNamed, findDeeperN, Bool.or_eq_false_iff,
        noTagL_iff t cs, nlAppend_eq_nil]

theorem noTagL_iff (t : String) (l : NodeList) :
    containsTagL t l = false ↔
      (l.filter (isTagNamed t) = .nil ∧ findDeeperL (isTagNamed t) l = .nil) := by
  cases l with
  | nil => simp [containsTagL, NodeList.filter, findDeeperL]
  | cons n rest =>
      rw [containsTagL, NodeList.filter, findDeeperL, Bool.or_eq_false_iff,
        noTagN_iff t n, noTagL_iff t rest, nlAppend_eq_nil]
      rcases hp : isTagNamed t n with _ | _
      · simp only [Bool.false_eq_true, if_false]
        simp
        tauto
      · simp
end

theorem findLayered_nil_iff {t : String} {l : NodeList} :
    findNodesLayered (isTagNamed t) l = .nil ↔ containsTagL t l = false := by
  rw [findNodesLayered, nlAppend_eq_nil, noTagL_iff]

mutual
theorem processHtmlN_id (n : HNode) (h : containsTagN "html" n = false) :
    processHtmlN n = n := by
  cases n with
  | text d => rfl
  | comment d => rfl
  | elem tn a cs =>
      rw [containsTagN, Bool.or_eq_false_iff] at h
      rw [processHtmlN]
      rw [if_neg (by
        have h1 := h.1
        simpa using h1)]
      rw [processHtmlL_id cs h.2]

theorem processHtmlL_id (l : NodeList) (h : containsTagL "html" l = false) :
    processHtmlL l = l := by
  cases l with
  | nil => rfl
  | cons n rest =>
      rw [containsTagL, Bool.or_eq_false_iff] at h
      rw [processHtmlL, processHtmlN_id n h.1, processHtmlL_id rest h.2]
end

theorem containsTagL_append : ∀ (t : String) (a b : NodeList),
    containsTagL t (a ++ b) = (containsTagL t a || containsTagL t b) := by
  intro t a b
  match a with
  | .nil => simp [containsTagL]; rfl
  | .cons n rest =>
      show containsTagL t (.cons n (rest ++ b)) = _
      rw [containsTagL, containsTagL_append t rest b, containsTagL]
      rw [Bool.or_assoc]

mutual
theorem removeByTagN_removes (t : String) (n : HNode) :
    containsTagL t (removeByTagN t n) = false := by
  cases n with
  | text d => simp [removeByTagN, one, containsTagL, containsTagN]
  | comment d => simp [removeByTagN, one, containsTagL, containsTagN]
  | elem tn a cs =>
      rw [removeByTagN]
      by_cases ht : tn = t
      · rw [if_pos ht]
        rfl
      · rw [if_neg ht]
        simp only [one, containsTagL, containsTagN]
        rw [removeByTagL_removes t cs]
        simp [ht]

theorem removeByTagL_removes (t : String) (l : NodeList) :
    containsTagL t (removeByTagL t l) = false := by
  cases l with
  | nil => rfl
  | cons n rest =>
      rw [removeByTagL]
      rw [containsTagL_append]
      rw [removeByTagN_removes t n, removeByTagL_removes t rest]
      rfl
end

/-! ## C9: title behavior in partial documents -/

/-- C9: when the final tree contains no `html` element anywhere, the
title stage of stack processing with `titleBehaviorInPartial = remove`
strips every `title` element at any nesting depth (the result contains
none), while with `preserve` it removes nothing — the tree is returned
unchanged. -/
theorem partialTitleBehavior (tree : NodeList)
    (hnil : findNodesLayered (isTagNamed "html") tree = .nil) :
    (titleStage .remove tree = removeByTagL "title" tree
      ∧ containsTagL "title" (titleStage .remove tree) = false)
  ∧ titleStage .preserve tree = tree := by
  have hct : containsTagL "html" tree = false := findLayered_nil_iff.mp hnil
  have hid : processHtmlL tree = tree := processHtmlL_id tree hct
  have h1 : titleStage .remove tree = removeByTagL "title" tree := by
    simp [titleStage, hnil, hid, NodeList.isEmpty]
  refine ⟨⟨h1, ?_⟩, ?_⟩
  · rw [h1]
    exact removeByTagL_removes _ _
  · simp [titleStage, hnil, hid, NodeList.isEmpty]

/-- Witness for `partialTitleBehavior` on a partial document with a
nested title. -/
theorem partialTitleBehaviorWitness :
    titleStage .remove
        (one (.elem "div" [] (one (.elem "title" [] (one (.text "T"))))))
      = one (.elem "div" [] .nil)
  ∧ titleStage .preserve
        (one (.elem "div" [] (one (.elem "title" [] (one (.text "T"))))))
      = one (.elem "div" [] (one (.elem "title" [] (one (.text "T"))))) := by
  have h := partialTitleBehavior
    (one (.elem "div" [] (one (.elem "title" [] (one (.text "T")))))) (by rfl)
  exact ⟨h.1.1.trans (by rfl), h.2⟩

/-! ## C5: stack de-duplication invariant -/

/-- Fold `collectPushChildren` over the children of exactly the pushes
to one stack name, in the traversal order of the push list (helper for
stating the accumulated bucket of one name). -/
def collectFor (name : String) : NodeList → List HNode × List String →
    List HNode × List String
  | .nil, acc => acc
  | .cons (.text _) rest, acc => collectFor name rest acc
  | .cons (.comment _) rest, acc => collectFor name rest acc
  | .cons (.elem _ a cs) rest, acc =>
      if getAttr a "stack" = some name then
        collectFor name rest (collectPushChildren cs acc)
      else collectFor name rest acc

theorem lookup_setStack (info : StackInfo) (nm name : String)
    (v : List HNode × List String) :
    lookupStack (setStack info nm v) name =
      if nm = name then some v else lookupStack info name := by
  induction info with
  | nil =>
      by_cases h : nm = name
      · simp [setStack, lookupStack, List.find?, h]
      · simp [setStack, lookupStack, List.find?, h]
  | cons p rest ih =>
      rcases p with ⟨n0, v0⟩
      by_cases h0 : n0 = nm
      · subst h0
        rw [show setStack ((n0, v0) :: rest) n0 v = (n0, v) :: rest by
          simp [setStack]]
        by_cases h : n0 = name
        · subst h
          simp [lookupStack, List.find?]
        · simp [lookupStack, List.find?, h]
      · rw [show setStack ((n0, v0) :: rest) nm v
            = (n0, v0) :: setStack rest nm v by simp [setStack, h0]]
        by_cases h : nm = name
        · subst h
          have hr := ih
          simp only [lookupStack] at hr
          simp only [lookupStack, List.find?]
          rw [show (decide (n0 = nm)) = false by simp [h0]]
          simp only [if_pos rfl] at hr ⊢
          simpa using hr
        · by_cases h2 : n0 = name
          · subst h2
            simp [lookupStack, List.find?, h]
          · have hr := ih
            simp only [lookupStack] at hr
            rw [if_neg h] at hr
            simp only [lookupStack, List.find?]
            rw [show (decide (n0 = name)) = false by simp [h2]]
            rw [if_neg h]
            simpa using hr

/-- The collection pass leaves, for every stack name, exactly the fold
of `collectPushChildren` over that name's pushes. -/
theorem collectStacksGo_lookup :
    ∀ (pushList : NodeList) (info info2 : StackInfo),
      collectStacksGo pushList info = .ok info2 →
      ∀ name, (lookupStack info2 name).getD ([], []) =
        collectFor name pushList ((lookupStack info name).getD ([], [])) := by
  intro pushList
  match pushList with
  | .nil =>
      intro info info2 h name
      simp only [collectStacksGo, Res.ok.injEq] at h
      rw [← h, collectFor]
  | .cons p rest =>
      intro info info2 h name
      match p with
      | .text d =>
          simp only [collectStacksGo] at h
          rw [collectFor]
          exact collectStacksGo_lookup rest info info2 h name
      | .comment d =>
          simp only [collectStacksGo] at h
          rw [collectFor]
          exact collectStacksGo_lookup rest info info2 h name
      | .elem t a cs =>
          rw [collectFor]
          rcases hst : getAttr a "stack" with _ | nm
          · simp [collectStacksGo, hst] at h
          · simp only [collectStacksGo, hst] at h
            have hr := collectStacksGo_lookup rest _ info2 h name
            rw [hr, lookup_setStack]
            by_cases he : nm = name
            · subst he
              rw [if_pos rfl, if_pos rfl]
              rfl
            · rw [if_neg he, if_neg (fun hc => he (Option.some.inj hc))]

theorem collectPush_filter_id : ∀ (cs : NodeList)
    (acc : List HNode × List String) (i : String),
    (collectPushChildren cs acc).1.filter (fun e => hasId e i)
      = acc.1.filter (fun e => hasId e i)
        ++ (if i ∈ acc.2 then []
            else (cs.toList.filter (fun e => hasId e i)).take 1) := by
  intro cs
  match cs with
  | .nil =>
      intro acc i
      simp [collectPushChildren, NodeList.toList]
  | .cons (.text d) rest =>
      intro acc i
      rw [collectPushChildren, collectPush_filter_id rest]
      simp [NodeList.toList, List.filter_append, hasId]
  | .cons (.comment d) rest =>
      intro acc i
      rw [collectPushChildren, collectPush_filter_id rest]
      simp [NodeList.toList, List.filter_append, hasId]
  | .cons (.elem t a cs0) rest =>
      intro acc i
      rcases hid : getAttr a "id" with _ | id
      · simp only [collectPushChildren, hid]
        rw [collectPush_filter_id rest]
        simp [NodeList.toList, List.filter_append, hasId, hid]
      · simp only [collectPushChildren, hid]
        by_cases hmem : id ∈ acc.2
        · rw [if_pos hmem, collectPush_filter_id rest]
          by_cases hii : id = i
          · subst hii
            rw [if_pos hmem, if_pos hmem]
          · have hstream : List.filter (fun e => hasId e i)
                ((NodeList.cons (.elem t a cs0) rest).toList)
                = List.filter (fun e => hasId e i) rest.toList := by
              simp [NodeList.toList, List.filter_cons, hasId, hid, hii]
            rw [hstream]
        · rw [if_neg hmem, collectPush_filter_id rest]
          by_cases hii : id = i
          · subst hii
            have hstream : List.filter (fun e => hasId e id)
                ((NodeList.cons (.elem t a cs0) rest).toList)
                = HNode.elem t a cs0
                    :: List.filter (fun e => hasId e id) rest.toList := by
              simp [NodeList.toList, List.filter_cons, hasId, hid]
            rw [if_pos (by simp), hstream, if_neg hmem]
            simp [List.filter_append, hasId, hid, List.take]
          · have hstream : List.filter (fun e => hasId e i)
                ((NodeList.cons (.elem t a cs0) rest).toList)
                = List.filter (fun e => hasId e i) rest.toList := by
              simp [NodeList.toList, List.filter_cons, hasId, hid, hii]
            rw [hstream]
            by_cases hic : i ∈ acc.2
            · rw [if_pos (List.mem_append.mpr (Or.inl hic)), if_pos hic]
              simp [List.filter_append, hasId, hid, hii]
            · have hnotin : ¬ i ∈ acc.2 ++ [id] := by
                intro hc
                rcases List.mem_append.mp hc with hc2 | hc2
                · exact hic hc2
                · exact hii (List.mem_singleton.mp hc2).symm
              rw [if_neg hnotin, if_neg hic]
              simp [List.filter_append, hasId, hid, hii]

theorem collectPush_mem_ids : ∀ (cs : NodeList)
    (acc : List HNode × List String) (i : String),
    i ∈ (collectPushChildren cs acc).2
      ↔ (i ∈ acc.2 ∨ ∃ e ∈ cs.toList, hasId e i = true) := by
  intro cs
  match cs with
  | .nil =>
      intro acc i
      simp [collectPushChildren, NodeList.toList]
  | .cons (.text d) rest =>
      intro acc i
      rw [collectPushChildren, collectPush_mem_ids rest]
      simp [NodeList.toList, hasId]
  | .cons (.comment d) rest =>
      intro acc i
      rw [collectPushChildren, collectPush_mem_ids rest]
      simp [NodeList.toList, hasId]
  | .cons (.elem t a cs0) rest =>
      intro acc i
      have helem : ∀ j, hasId (HNode.elem t a cs0) j = true ↔
          getAttr a "id" = some j := by
        intro j
        simp [hasId]
      rcases hid : getAttr a "id" with _ | id
      · simp only [collectPushChildren, hid]
        rw [collectPush_mem_ids rest]
        simp [NodeList.toList, hasId, hid]
      · simp only [collectPushChildren, hid]
        by_cases hmem : id ∈ acc.2
        · rw [if_pos hmem, collectPush_mem_ids rest]
          simp only [NodeList.toList, List.mem_cons]
          constructor
          · intro h
            rcases h with h | ⟨e, he, hh⟩
            · exact Or.inl h
            · exact Or.inr ⟨e, Or.inr he, hh⟩
          · intro h
            rcases h with h | ⟨e, he, hh⟩
            · exact Or.inl h
            · rcases he with he | he
              · subst he
                rw [helem i, hid, Option.some.injEq] at hh
                exact Or.inl (hh ▸ hmem)
              · exact Or.inr ⟨e, he, hh⟩
        · rw [if_neg hmem, collectPush_mem_ids rest]
          simp only [NodeList.toList, List.mem_cons, List.mem_append,
            List.mem_singleton]
          constructor
          · intro h
            rcases h with (h | h) | ⟨e, he, hh⟩
            · exact Or.inl h
            · rcases h with h | h
              · subst h
                exact Or.inr ⟨.elem t a cs0, Or.inl rfl, by
                  rw [helem i]
                  exact hid⟩
              · exact absurd h (List.not_mem_nil i)
            · exact Or.inr ⟨e, Or.inr he, hh⟩
          · intro h
            rcases h with h | ⟨e, he, hh⟩
            · exact Or.inl (Or.inl h)
            · rcases he with he | he
              · subst he
                rw [helem i, hid, Option.some.injEq] at hh
                exact Or.inl (Or.inr (Or.inl hh.symm))
              · exact Or.inr ⟨e, he, hh⟩

theorem collectPush_filter_noid : ∀ (cs : NodeList)
    (acc : List HNode × List String),
    (collectPushChildren cs acc).1.filter (fun e => ! hasSomeId e)
      = acc.1.filter (fun e => ! hasSomeId e)
        ++ cs.toList.filter (fun e => ! hasSomeId e) := by
  intro cs
  match cs with
  | .nil =>
      intro acc
      simp [collectPushChildren, NodeList.toList]
  | .cons (.text d) rest =>
      intro acc
      rw [collectPushChildren, collectPush_filter_noid rest]
      simp [NodeList.toList, List.filter_append, hasSomeId, List.filter_cons]
  | .cons (.comment d) rest =>
      intro acc
      rw [collectPushChildren, collectPush_filter_noid rest]
      simp [NodeList.toList, List.filter_append, hasSomeId, List.filter_cons]
  | .cons (.elem t a cs0) rest =>
      intro acc
      rcases hid : getAttr a "id" with _ | id
      · simp only [collectPushChildren, hid]
        rw [collectPush_filter_noid rest]
        simp [NodeList.toList, List.filter_append, hasSomeId, hasAttr, hid,
          List.filter_cons]
      · have hsome : hasSomeId (HNode.elem t a cs0) = true := by
          simp [hasSomeId, hasAttr, hid]
        simp only [collectPushChildren, hid]
        by_cases hmem : id ∈ acc.2
        · rw [if_pos hmem, collectPush_filter_noid rest]
          simp [NodeList.toList, List.filter_cons, hsome]
        · rw [if_neg hmem, collectPush_filter_noid rest]
          simp [NodeList.toList, List.filter_append, List.filter_cons, hsome]

theorem collectFor_mem_ids (name : String) : ∀ (ps : NodeList)
    (acc : List HNode × List String) (i : String),
    i ∈ (collectFor name ps acc).2
      ↔ (i ∈ acc.2 ∨ ∃ e ∈ pushChildrenFor name ps, hasId e i = true) := by
  intro ps
  match ps with
  | .nil =>
      intro acc i
      simp [collectFor, pushChildrenFor]
  | .cons (.text d) rest =>
      intro acc i
      rw [collectFor, pushChildrenFor, collectFor_mem_ids name rest]
  | .cons (.comment d) rest =>
      intro acc i
      rw [collectFor, pushChildrenFor, collectFor_mem_ids name rest]
  | .cons (.elem t a cs) rest =>
      intro acc i
      rw [collectFor, pushChildrenFor]
      by_cases hstk : getAttr a "stack" = some name
      · rw [if_pos hstk, if_pos hstk, collectFor_mem_ids name rest,
          collectPush_mem_ids]
        simp only [List.mem_append]
        constructor
        · intro h
          rcases h with (h | h) | ⟨e, he, hh⟩
          · exact Or.inl h
          · exact Or.inr ⟨h.choose, Or.inl h.choose_spec.1, h.choose_spec.2⟩
          · exact Or.inr ⟨e, Or.inr he, hh⟩
        · intro h
          rcases h with h | ⟨e, he, hh⟩
          · exact Or.inl (Or.inl h)
          · rcases he with he | he
            · exact Or.inl (Or.inr ⟨e, he, hh⟩)
            · exact Or.inr ⟨e, he, hh⟩
      · rw [if_neg hstk, if_neg hstk, collectFor_mem_ids name rest]
        simp

theorem collectFor_filter_id (name : String) : ∀ (ps : NodeList)
    (acc : List HNode × List String) (i : String),
    (collectFor name ps acc).1.filter (fun e => hasId e i)
      = acc.1.filter (fun e => hasId e i)
        ++ (if i ∈ acc.2 then []
            else ((pushChildrenFor name ps).filter (fun e => hasId e i)).take 1) := by
  intro ps
  match ps with
  | .nil =>
      intro acc i
      simp [collectFor, pushChildrenFor]
  | .cons (.text d) rest =>
      intro acc i
      rw [collectFor, pushChildrenFor, collectFor_filter_id name rest]
  | .cons (.comment d) rest =>
      intro acc i
      rw [collectFor, pushChildrenFor, collectFor_filter_id name rest]
  | .cons (.elem t a cs) rest =>
      intro acc i
      rw [collectFor, pushChildrenFor]
      by_cases hstk : getAttr a "stack" = some name
      · rw [if_pos hstk, if_pos hstk, collectFor_filter_id name rest,
          collectPush_filter_id]
        by_cases hic : i ∈ acc.2
        · rw [if_pos hic, if_pos hic,
            if_pos ((collectPush_mem_ids cs acc i).mpr (Or.inl hic))]
          simp
        · rw [if_neg hic, if_neg hic]
          rcases hfl : cs.toList.filter (fun e => hasId e i) with _ | ⟨e, es⟩
          · rw [if_neg (by
              rw [collectPush_mem_ids]
              intro hc
              rcases hc with hc | ⟨e, he, hh⟩
              · exact hic hc
              · exact absurd hh (by
                  have := List.filter_eq_nil_iff.mp hfl e he
                  simpa using this))]
            rw [List.filter_append, hfl]
            simp
          · rw [if_pos (by
              rw [collectPush_mem_ids]
              refine Or.inr ⟨e, ?_, ?_⟩
              · have : e ∈ cs.toList.filter (fun e => hasId e i) := by
                  rw [hfl]; simp
                exact (List.mem_filter.mp this).1
              · have : e ∈ cs.toList.filter (fun e => hasId e i) := by
                  rw [hfl]; simp
                exact (List.mem_filter.mp this).2)]
            rw [List.filter_append, hfl]
            simp [List.take]
      · rw [if_neg hstk, if_neg hstk, collectFor_filter_id name rest]
        simp

theorem collectFor_filter_noid (name : String) : ∀ (ps : NodeList)
    (acc : List HNode × List String),
    (collectFor name ps acc).1.filter (fun e => ! hasSomeId e)
      = acc.1.filter (fun e => ! hasSomeId e)
        ++ (pushChildrenFor name ps).filter (fun e => ! hasSomeId e) := by
  intro ps
  match ps with
  | .nil =>
      intro acc
      simp [collectFor, pushChildrenFor]
  | .cons (.text d) rest =>
      intro acc
      rw [collectFor, pushChildrenFor, collectFor_filter_noid name rest]
  | .cons (.comment d) rest =>
      intro acc
      rw [collectFor, pushChildrenFor, collectFor_filter_noid name rest]
  | .cons (.elem t a cs) rest =>
      intro acc
      rw [collectFor, pushChildrenFor]
      by_cases hstk : getAttr a "stack" = some name
      · rw [if_pos hstk, if_pos hstk, collectFor_filter_noid name rest,
          collectPush_filter_noid]
        simp [List.filter_append]
      · rw [if_neg hstk, if_neg hstk, collectFor_filter_noid name rest]
        simp

/-- C5 (amended): after collection, the bucket of every stack name
contains, per id value, exactly the first element carrying that id in
the collection traversal (so at most one element per id), and every
pushed child without an id — elements and non-elements alike — in
order.  The collection traversal (`pushedStream`) lists sibling pushes
before pushes nested deeper within earlier siblings (`findElements`
order), which coincides with document order only for pushes at equal
nesting depth — see the counterexample for the document-order reading. -/
theorem stackDedupFirstInTraversal (tree : NodeList) (name : String)
    (info : StackInfo) (content : List HNode) (ids : List String)
    (h : stackContents tree = .ok info)
    (hl : lookupStack info name = some (content, ids)) :
    (∀ i, content.filter (fun e => hasId e i)
        = ((pushedStream tree name).filter (fun e => hasId e i)).take 1)
  ∧ (∀ i, (content.filter (fun e => hasId e i)).length ≤ 1)
  ∧ content.filter (fun e => ! hasSomeId e)
      = (pushedStream tree name).filter (fun e => ! hasSomeId e) := by
  have hmain := collectStacksGo_lookup
    (findNodesLayered (isTagNamed pushTagName) tree) [] info h name
  rw [hl] at hmain
  simp only [lookupStack, List.find?, Option.map, Option.getD] at hmain
  have hcontent : content
      = (collectFor name (findNodesLayered (isTagNamed pushTagName) tree)
          ([], [])).1 := by
    rw [← hmain]
  have hfid := collectFor_filter_id name
    (findNodesLayered (isTagNamed pushTagName) tree) ([], [])
  have hfnoid := collectFor_filter_noid name
    (findNodesLayered (isTagNamed pushTagName) tree) ([], [])
  refine ⟨?_, ?_, ?_⟩
  · intro i
    rw [hcontent, hfid i]
    simp [pushedStream]
  · intro i
    rw [hcontent, hfid i]
    simp only [List.filter_nil, List.nil_append, List.not_mem_nil]
    rw [if_neg (fun hc => hc)]
    cases hl2 : ((pushChildrenFor name
        (findNodesLayered (isTagNamed pushTagName) tree)).filter
          (fun e => hasId e i)) with
    | nil => simp
    | cons x xs => simp [List.take]
  · rw [hcontent, hfnoid]
    simp [pushedStream]

/-- Witness for `stackDedupFirstInTraversal` on a concrete two-push
tree with one duplicated id. -/
theorem stackDedupFirstInTraversalWitness :
    ∃ info content ids,
      stackContents (NodeList.ofList
        [ .elem "push" [("stack", "s")] (NodeList.ofList
            [ .elem "script" [("id", "a"), ("v", "1")] .nil,
              .text "keep",
              .elem "script" [("id", "a"), ("v", "2")] .nil ]) ])
        = .ok info
      ∧ lookupStack info "s" = some (content, ids)
      ∧ content.filter (fun e => hasId e "a")
          = [.elem "script" [("id", "a"), ("v", "1")] .nil]
      ∧ content.filter (fun e => ! hasSomeId e) = [.text "keep"] := by
  have h := stackDedupFirstInTraversal
    (NodeList.ofList
      [ .elem "push" [("stack", "s")] (NodeList.ofList
          [ .elem "script" [("id", "a"), ("v", "1")] .nil,
            .text "keep",
            .elem "script" [("id", "a"), ("v", "2")] .nil ]) ])
    "s"
    [("s", ([.elem "script" [("id", "a"), ("v", "1")] .nil, .text "keep"],
      ["a"]))]
    [.elem "script" [("id", "a"), ("v", "1")] .nil, .text "keep"] ["a"]
    rfl rfl
  refine ⟨[("s", ([.elem "script" [("id", "a"), ("v", "1")] .nil, .text "keep"],
      ["a"]))],
    [.elem "script" [("id", "a"), ("v", "1")] .nil, .text "keep"], ["a"],
    rfl, rfl, ?_, ?_⟩
  · rw [h.1 "a"]
    rfl
  · rw [h.2.2]
    rfl

/-- C5 counterexample: the element kept for a duplicated id is the
first in the `findElements` traversal (sibling pushes before nested
ones), not the first in document order.  Here the nested push (inside
the `div`) precedes the top-level push in document order, yet the
top-level push's child (`v="2"`) wins and the nested one (`v="1"`) is
skipped. -/
theorem stackDedupDocOrderCounterexample :
    stackContents (NodeList.ofList
        [ .elem "div" [] (one (.elem "push" [("stack", "s")]
            (one (.elem "span" [("id", "a"), ("v", "1")] .nil)))),
          .elem "push" [("stack", "s")]
            (one (.elem "span" [("id", "a"), ("v", "2")] .nil)) ])
      = .ok [("s", ([.elem "span" [("id", "a"), ("v", "2")] .nil], ["a"]))]
  ∧ pushedStream (NodeList.ofList
        [ .elem "div" [] (one (.elem "push" [("stack", "s")]
            (one (.elem "span" [("id", "a"), ("v", "1")] .nil)))),
          .elem "push" [("stack", "s")]
            (one (.elem "span" [("id", "a"), ("v", "2")] .nil)) ]) "s"
      = [ .elem "span" [("id", "a"), ("v", "2")] .nil,
          .elem "span" [("id", "a"), ("v", "1")] .nil ]
  ∧ ¬ ((HNode.elem "span" [("id", "a"), ("v", "2")] .nil)
        = .elem "span" [("id", "a"), ("v", "1")] .nil) := by
  refine ⟨rfl, rfl, ?_⟩
  simp

/-! ## C10: empty-string ids participate in stack de-duplication -/

/-- C10 (amended): a pushed child element whose `id` attribute is
present but equal to the empty string participates in id
de-duplication like any other id value: for every stack name the
bucket keeps exactly the first `id=""` child in the `findElements`
collection traversal (so at most one such child overall), and the
empty string is recorded in the id set precisely when some pushed
child carries it.  The collection traversal lists sibling pushes
before pushes nested deeper inside earlier siblings, so the kept child
is the document-order first only for pushes at equal nesting depth —
see the counterexample for the document-order reading. -/
theorem emptyIdDedupTraversal (tree : NodeList) (name : String)
    (info : StackInfo) (content : List HNode) (ids : List String)
    (h : stackContents tree = .ok info)
    (hl : lookupStack info name = some (content, ids)) :
    content.filter (fun e => hasId e "")
        = ((pushedStream tree name).filter (fun e => hasId e "")).take 1
  ∧ (content.filter (fun e => hasId e "")).length ≤ 1
  ∧ ("" ∈ ids ↔ ∃ e ∈ pushedStream tree name, hasId e "" = true) := by
  have hmain := collectStacksGo_lookup
    (findNodesLayered (isTagNamed pushTagName) tree) [] info h name
  rw [hl] at hmain
  simp only [lookupStack, List.find?, Option.map, Option.getD] at hmain
  have hcontent : content
      = (collectFor name (findNodesLayered (isTagNamed pushTagName) tree)
          ([], [])).1 := by
    rw [← hmain]
  have hids : ids
      = (collectFor name (findNodesLayered (isTagNamed pushTagName) tree)
          ([], [])).2 := by
    rw [← hmain]
  have hfid := collectFor_filter_id name
    (findNodesLayered (isTagNamed pushTagName) tree) ([], []) ""
  refine ⟨?_, ?_, ?_⟩
  · rw [hcontent, hfid]
    simp [pushedStream]
  · rw [hcontent, hfid]
    simp only [List.filter_nil, List.nil_append, List.not_mem_nil]
    rw [if_neg (fun hc => hc)]
    cases hl2 : ((pushChildrenFor name
        (findNodesLayered (isTagNamed pushTagName) tree)).filter
          (fun e => hasId e "")) with
    | nil => simp
    | cons x xs => simp [List.take]
  · rw [hids, collectFor_mem_ids]
    simp [pushedStream]

/-- Witness for `emptyIdDedupTraversal`: one push with two `id=""`
children keeps only the first and records the empty id. -/
theorem emptyIdDedupTraversalWitness :
    (([.elem "i" [("id", "")] .nil] : List HNode).filter
          (fun e => hasId e "")
        = ((pushedStream (NodeList.ofList
            [ .elem "push" [("stack", "s")] (NodeList.ofList
                [ .elem "i" [("id", "")] .nil,
                  .elem "b" [("id", "")] .nil ]) ]) "s").filter
            (fun e => hasId e "")).take 1)
  ∧ (([.elem "i" [("id", "")] .nil] : List HNode).filter
        (fun e => hasId e "")).length ≤ 1
  ∧ ("" ∈ ([""] : List String) ↔
      ∃ e ∈ pushedStream (NodeList.ofList
          [ .elem "push" [("stack", "s")] (NodeList.ofList
              [ .elem "i" [("id", "")] .nil,
                .elem "b" [("id", "")] .nil ]) ]) "s",
        hasId e "" = true) :=
  emptyIdDedupTraversal
    (NodeList.ofList
      [ .elem "push" [("stack", "s")] (NodeList.ofList
          [ .elem "i" [("id", "")] .nil,
            .elem "b" [("id", "")] .nil ]) ])
    "s" [("s", ([.elem "i" [("id", "")] .nil], [""]))]
    [.elem "i" [("id", "")] .nil] [""] rfl rfl

/-- C10 counterexample (to the document-order reading): with both
pushed children carrying `id=""`, a push nested inside an earlier
sibling loses to a later top-level push — the kept child (`<b v="2">`)
is the document-order second, and the document-order first
(`<i v="1">`, inside the `div`) is skipped. -/
theorem emptyIdDocOrderCounterexample :
    stackContents (NodeList.ofList
        [ .elem "div" [] (one (.elem "push" [("stack", "t")]
            (one (.elem "i" [("id", ""), ("v", "1")] .nil)))),
          .elem "push" [("stack", "t")]
            (one (.elem "b" [("id", ""), ("v", "2")] .nil)) ])
      = .ok [("t", ([.elem "b" [("id", ""), ("v", "2")] .nil], [""]))]
  ∧ pushedStream (NodeList.ofList
        [ .elem "div" [] (one (.elem "push" [("stack", "t")]
            (one (.elem "i" [("id", ""), ("v", "1")] .nil)))),
          .elem "push" [("stack", "t")]
            (one (.elem "b" [("id", ""), ("v", "2")] .nil)) ]) "t"
      = [ .elem "b" [("id", ""), ("v", "2")] .nil,
          .elem "i" [("id", ""), ("v", "1")] .nil ]
  ∧ ¬ ((HNode.elem "b" [("id", ""), ("v", "2")] .nil)
        = .elem "i" [("id", ""), ("v", "1")] .nil) := by
  refine ⟨rfl, rfl, ?_⟩
  simp

mutual
theorem applyMarkersN_snd (strats : List MergeStrategy)
    (m : List (String × AttrList)) :
    ∀ n, noDefaultMarkerN n = true → (applyMarkersN strats m n).2 = false
  | .text d, _ => rfl
  | .comment d, _ => rfl
  | .elem t a cs, h => by
      have h2 : noDefaultMarkerL cs = true := by
        have h3 := h
        simp only [noDefaultMarkerN, Bool.and_eq_true] at h3
        exact h3.2
      have hcs := applyMarkersL_snd strats m cs h2
      simp only [applyMarkersN]
      rcases hval : getAttr a attrAttrName with _ | val
      · simpa using hcs
      · simp only [noDefaultMarkerN, hval, Bool.and_eq_true,
          decide_eq_true_eq] at h
        simp [hcs, h.1]

theorem applyMarkersL_snd (strats : List MergeStrategy)
    (m : List (String × AttrList)) :
    ∀ l, noDefaultMarkerL l = true → (applyMarkersL strats m l).2 = false
  | .nil, _ => rfl
  | .cons n rest, h => by
      simp only [noDefaultMarkerL, Bool.and_eq_true] at h
      have hn := applyMarkersN_snd strats m n h.1
      have hr := applyMarkersL_snd strats m rest h.2
      simp [applyMarkersL, hn, hr]
end

theorem updateFirstTag_decomp (strats : List MergeStrategy)
    (bucket : AttrList) :
    ∀ (pre : NodeList) (t : String) (a : AttrList) (cs post : NodeList),
    skipsAttrTargetL pre = true →
    ((t = "script" ∨ t = "style") → False) →
    updateFirstTag strats bucket (pre ++ one (.elem t a cs) ++ post)
      = pre ++ one (.elem t (assignAttributesToElement strats a bucket) cs)
          ++ post
  | .nil, t, a, cs, post, _, ht => by
      show updateFirstTag strats bucket (.cons (.elem t a cs) post) = _
      rw [updateFirstTag, if_neg ht]
      rfl
  | .cons n pre, t, a, cs, post, hpre, ht => by
      simp only [skipsAttrTargetL, Bool.and_eq_true] at hpre
      have ih := updateFirstTag_decomp strats bucket pre t a cs post
        hpre.2 ht
      rw [nlCons_append, nlCons_append]
      match n, hpre.1 with
      | .text d, _ =>
          simp only [updateFirstTag]
          exact congrArg _ ih
      | .comment d, _ =>
          simp only [updateFirstTag]
          exact congrArg _ ih
      | .elem t2 a2 cs2, hs =>
          have hss : t2 = "script" ∨ t2 = "style" := by
            simpa [skipsAttrTarget] using hs
          simp only [updateFirstTag]
          rw [if_pos hss]
          exact congrArg _ ih

/-- C3: when no element of the component tree carries the `attr` marker
with the empty-string (default-bucket) value, and the caller attributes
produce a default bucket, the merged default-bucket attributes land via
the merge-strategy registry on exactly the first top-level element whose
tag is neither `script` nor `style` (the decomposition hypothesis names
it), and every other node of the marked tree is left unchanged. -/
theorem componentDefaultBucketRouting
    (strats : List MergeStrategy) (callerAttribs : AttrList)
    (tree : NodeList) (bucket : AttrList) (pre : NodeList) (t : String)
    (a : AttrList) (cs post : NodeList)
    (hno : noDefaultMarkerL tree = true)
    (hb : lookupBucket (buildAttrMap callerAttribs) "" = some bucket)
    (hdec : (applyMarkersL strats (buildAttrMap callerAttribs) tree).1
      = pre ++ one (.elem t a cs) ++ post)
    (hpre : skipsAttrTargetL pre = true)
    (ht : (t = "script" ∨ t = "style") → False) :
    passAttributesToComponent strats callerAttribs tree
      = pre ++ one (.elem t (assignAttributesToElement strats a bucket) cs)
          ++ post := by
  have hsnd := applyMarkersL_snd strats (buildAttrMap callerAttribs) tree hno
  simp only [passAttributesToComponent, hsnd, hb]
  rw [hdec]
  exact updateFirstTag_decomp strats bucket pre t a cs post hpre ht

/-- Witness for `componentDefaultBucketRouting`: the spec instance —
component body `<p></p><p></p>` with caller attribute
`data-test="TEST"` puts the attribute on the first `p` only. -/
theorem componentDefaultBucketRoutingWitness :
    passAttributesToComponent (configuredStrategies [])
        [("data-test", "TEST")]
        (NodeList.ofList [.elem "p" [] .nil, .elem "p" [] .nil])
      = NodeList.ofList
          [.elem "p" [("data-test", "TEST")] .nil, .elem "p" [] .nil] := by
  have h := componentDefaultBucketRouting (configuredStrategies [])
    [("data-test", "TEST")]
    (NodeList.ofList [.elem "p" [] .nil, .elem "p" [] .nil])
    [("data-test", "TEST")] .nil "p" [] .nil (one (.elem "p" [] .nil))
    rfl rfl rfl rfl
    (by intro hc; rcases hc with hc | hc <;> simp at hc)
  rw [h]
  rfl

theorem depthMap_filter (d D : Nat) : ∀ xs : List HNode,
    (xs.map (fun n => (n, d))).filter (atDepth D)
      = if d = D then xs.map (fun n => (n, d)) else [] := by
  intro xs
  induction xs with
  | nil => simp
  | cons x xs ih =>
      simp only [List.map_cons, List.filter_cons]
      by_cases hd : d = D
      · rw [if_pos hd, ih, if_pos hd]
        simp [atDepth, hd]
      · rw [ih, if_neg hd]
        simp [atDepth, hd]

theorem pairsAt_filter (p : HNode → Bool) (l : NodeList) (d D : Nat) :
    (pairsAt p l d).filter (atDepth D)
      = if d = D then pairsAt p l d else [] := by
  rw [pairsAt, depthMap_filter]

theorem pairsAt_cons (p : HNode → Bool) (n : HNode) (rest : NodeList)
    (d : Nat) :
    pairsAt p (.cons n rest) d
      = (if p n then [(n, d)] else []) ++ pairsAt p rest d := by
  rw [pairsAt, NodeList.filter]
  by_cases hp : p n
  · rw [if_pos hp, if_pos hp, NodeList.toList, List.map_cons]
    rfl
  · rw [if_neg hp, if_neg hp, List.nil_append]
    rfl

mutual
theorem ldBoundN (p : HNode → Bool) :
    ∀ (n : HNode) (d D : Nat), D ≤ d →
    (layeredDeepN p n d).filter (atDepth D) = []
  | .text s, d, D, _ => rfl
  | .comment s, d, D, _ => rfl
  | .elem t a cs, d, D, h => by
      rw [layeredDeepN, List.filter_append, pairsAt_filter,
        if_neg (by omega), ldBoundL p cs (d + 1) D (by omega)]
      rfl

theorem ldBoundL (p : HNode → Bool) :
    ∀ (l : NodeList) (d D : Nat), D ≤ d →
    (layeredDeepL p l d).filter (atDepth D) = []
  | .nil, d, D, _ => rfl
  | .cons n rest, d, D, h => by
      rw [layeredDeepL, List.filter_append, ldBoundN p n d D h,
        ldBoundL p rest d D h]
      rfl
end

mutual
theorem poBoundN (p : HNode → Bool) :
    ∀ (n : HNode) (d D : Nat), D < d →
    (preorderWithDepthN p n d).filter (atDepth D) = []
  | .text s, d, D, h => by
      simp only [preorderWithDepthN]
      by_cases hp : p (HNode.text s)
      · rw [if_pos hp]
        simp only [List.filter_cons, List.filter_nil]
        rw [if_neg (by simp [atDepth]; omega)]
      · rw [if_neg hp]
        rfl
  | .comment s, d, D, h => by
      simp only [preorderWithDepthN]
      by_cases hp : p (HNode.comment s)
      · rw [if_pos hp]
        simp only [List.filter_cons, List.filter_nil]
        rw [if_neg (by simp [atDepth]; omega)]
      · rw [if_neg hp]
        rfl
  | .elem t a cs, d, D, h => by
      rw [preorderWithDepthN, List.filter_append,
        poBoundL p cs (d + 1) D (by omega)]
      by_cases hp : p (HNode.elem t a cs)
      · rw [if_pos hp]
        simp only [List.filter_cons, List.filter_nil]
        rw [if_neg (by simp [atDepth]; omega)]
        rfl
      · rw [if_neg hp]
        rfl

theorem poBoundL (p : HNode → Bool) :
    ∀ (l : NodeList) (d D : Nat), D < d →
    (preorderWithDepthL p l d).filter (atDepth D) = []
  | .nil, d, D, _ => rfl
  | .cons n rest, d, D, h => by
      rw [preorderWithDepthL, List.filter_append, poBoundN p n d D h,
        poBoundL p rest d D h]
      rfl
end

mutual
theorem poTopN (p : HNode → Bool) :
    ∀ (n : HNode) (d : Nat),
    (preorderWithDepthN p n d).filter (atDepth d)
      = if p n then [(n, d)] else []
  | .text s, d => by
      simp only [preorderWithDepthN]
      by_cases hp : p (HNode.text s)
      · rw [if_pos hp]
        simp [atDepth]
      · rw [if_neg hp]
        rfl
  | .comment s, d => by
      simp only [preorderWithDepthN]
      by_cases hp : p (HNode.comment s)
      · rw [if_pos hp]
        simp [atDepth]
      · rw [if_neg hp]
        rfl
  | .elem t a cs, d => by
      rw [preorderWithDepthN, List.filter_append,
        poBoundL p cs (d + 1) d (by omega)]
      by_cases hp : p (HNode.elem t a cs)
      · rw [if_pos hp]
        simp [atDepth]
      · rw [if_neg hp]
        rfl

theorem poTopL (p : HNode → Bool) :
    ∀ (l : NodeList) (d : Nat),
    (preorderWithDepthL p l d).filter (atDepth d) = pairsAt p l d
  | .nil, d => rfl
  | .cons n rest, d => by
      rw [preorderWithDepthL, List.filter_append, poTopN p n d,
        poTopL p rest d, pairsAt_cons]
end

mutual
theorem corrDeepN (p : HNode → Bool) :
    ∀ (n : HNode) (d D : Nat), d < D →
    (layeredDeepN p n d).filter (atDepth D)
      = (preorderWithDepthN p n d).filter (atDepth D)
  | .text s, d, D, h => by
      simp only [layeredDeepN, preorderWithDepthN, List.filter_nil]
      by_cases hp : p (HNode.text s)
      · rw [if_pos hp]
        simp only [List.filter_cons, List.filter_nil]
        rw [if_neg (by simp [atDepth]; omega)]
      · rw [if_neg hp]
        rfl
  | .comment s, d, D, h => by
      simp only [layeredDeepN, preorderWithDepthN, List.filter_nil]
      by_cases hp : p (HNode.comment s)
      · rw [if_pos hp]
        simp only [List.filter_cons, List.filter_nil]
        rw [if_neg (by simp [atDepth]; omega)]
      · rw [if_neg hp]
        rfl
  | .elem t a cs, d, D, h => by
      rw [layeredDeepN, preorderWithDepthN,
        corrTopL p cs (d + 1) D (by omega), List.filter_append]
      by_cases hp : p (HNode.elem t a cs)
      · rw [if_pos hp]
        simp only [List.filter_cons, List.filter_nil]
        rw [if_neg (by simp [atDepth]; omega)]
        rfl
      · rw [if_neg hp]
        rfl

theorem corrTopL (p : HNode → Bool) :
    ∀ (l : NodeList) (d D : Nat), d ≤ D →
    (pairsAt p l d ++ layeredDeepL p l d).filter (atDepth D)
      = (preorderWithDepthL p l d).filter (atDepth D)
  | .nil, d, D, _ => rfl
  | .cons n rest, d, D, h => by
      rw [pairsAt_cons, layeredDeepL, preorderWithDepthL]
      rcases Nat.lt_or_ge d D with hlt | hge
      · have hne : ¬ (d = D) := by omega
        have ihn := corrDeepN p n d D hlt
        have ihr := corrTopL p rest d D h
        rw [List.filter_append] at ihr
        rw [pairsAt_filter, if_neg hne] at ihr
        rw [List.nil_append] at ihr
        simp only [List.append_assoc, List.filter_append,
          pairsAt_filter, if_neg hne, List.nil_append, ihn, ihr]
        by_cases hp : p n
        · rw [if_pos hp]
          simp only [List.filter_cons, List.filter_nil]
          rw [if_neg (by simp [atDepth]; omega)]
          rfl
        · rw [if_neg hp]
          rfl
      · have hd : d = D := by omega
        subst hd
        have ihn := ldBoundN p n d d (Nat.le_refl d)
        have ihr := ldBoundL p rest d d (Nat.le_refl d)
        simp only [List.append_assoc, List.filter_append,
          pairsAt_filter, if_pos rfl, ihn, ihr, List.nil_append,
          List.append_nil, poTopN, poTopL]
        by_cases hp : p n
        · rw [if_pos hp]
          simp [List.filter_cons, atDepth]
        · rw [if_neg hp]
          rfl
end

theorem layeredCorr (p : HNode → Bool) (l : NodeList) (D : Nat) :
    (layeredWithDepth p l 0).filter (atDepth D)
      = (preorderWithDepthL p l 0).filter (atDepth D) :=
  corrTopL p l 0 D (Nat.zero_le D)

theorem layered_mem_preorder (p : HNode → Bool) (l : NodeList)
    (e : HNode × Nat) (he : e ∈ layeredWithDepth p l 0) :
    e ∈ preorderWithDepthL p l 0 := by
  have h1 : e ∈ (layeredWithDepth p l 0).filter (atDepth e.2) :=
    List.mem_filter.mpr ⟨he, by simp [atDepth]⟩
  rw [layeredCorr] at h1
  exact (List.mem_filter.mp h1).1

theorem pickFold_bound : ∀ (l : List (HNode × Nat))
    (acc : Option (HNode × Nat)) (dw : Nat),
    (∀ e ∈ l, e.2 ≤ dw) → (∀ b, acc = some b → b.2 ≤ dw) →
    ∀ b, List.foldl pickStep acc l = some b → b.2 ≤ dw
  | [], acc, dw, _, hacc, b, hb => hacc b hb
  | e :: l, acc, dw, hl, hacc, b, hb => by
      have he : e.2 ≤ dw := hl e (List.mem_cons_self e l)
      have hl2 : ∀ x ∈ l, x.2 ≤ dw :=
        fun x hx => hl x (List.mem_cons_of_mem e hx)
      have hstep : ∀ b2, pickStep acc e = some b2 → b2.2 ≤ dw := by
        intro b2 hb2
        cases acc with
        | none =>
            simp only [pickStep, Option.some.injEq] at hb2
            rw [← hb2]
            exact he
        | some best =>
            have hbest := hacc best rfl
            simp only [pickStep] at hb2
            by_cases hle : best.2 ≤ e.2
            · rw [if_pos hle, Option.some.injEq] at hb2
              rw [← hb2]
              exact he
            · rw [if_neg hle, Option.some.injEq] at hb2
              rw [← hb2]
              exact hbest
      exact pickFold_bound l (pickStep acc e) dw hl2 hstep b hb

theorem pickFold_post : ∀ (post : List (HNode × Nat)) (w : HNode)
    (dw : Nat), (∀ e ∈ post, e.2 < dw) →
    List.foldl pickStep (some (w, dw)) post = some (w, dw)
  | [], w, dw, _ => rfl
  | e :: post, w, dw, h => by
      have he : e.2 < dw := h e (List.mem_cons_self e post)
      have h2 : ∀ x ∈ post, x.2 < dw :=
        fun x hx => h x (List.mem_cons_of_mem e hx)
      have hstep : pickStep (some (w, dw)) e = some (w, dw) := by
        simp only [pickStep]
        rw [if_neg (by omega)]
      rw [List.foldl_cons, hstep]
      exact pickFold_post post w dw h2

theorem pickDeepest_decomp (preL : List (HNode × Nat)) (w : HNode)
    (dw : Nat) (postL : List (HNode × Nat))
    (hpre : ∀ e ∈ preL, e.2 ≤ dw) (hpost : ∀ e ∈ postL, e.2 < dw) :
    pickDeepest (preL ++ (w, dw) :: postL) = some (w, dw) := by
  rw [pickDeepest, List.foldl_append, List.foldl_cons]
  have hmid : pickStep (List.foldl pickStep none preL) (w, dw)
      = some (w, dw) := by
    cases hacc : List.foldl pickStep none preL with
    | none => rfl
    | some b =>
        have hb : b.2 ≤ dw :=
          pickFold_bound preL none dw hpre (by intro x hx; cases hx) b hacc
        simp only [pickStep]
        rw [if_pos hb]
  rw [hmid]
  exact pickFold_post postL w dw hpost

theorem last_filter_decomp : ∀ (l : List (HNode × Nat))
    (x : List (HNode × Nat)) (w : HNode) (dw : Nat),
    l.filter (atDepth dw) = x ++ [(w, dw)] →
    ∃ preL postL, l = preL ++ (w, dw) :: postL
      ∧ postL.filter (atDepth dw) = []
  | [], x, w, dw, h => by
      simp at h
  | e :: l, x, w, dw, h => by
      rw [List.filter_cons] at h
      by_cases hd : atDepth dw e = true
      · rw [if_pos hd] at h
        cases x with
        | nil =>
            rw [List.nil_append] at h
            have he : e = (w, dw) := by
              have := List.head_eq_of_cons_eq h
              exact this
            have hl : l.filter (atDepth dw) = [] :=
              List.tail_eq_of_cons_eq h
            exact ⟨[], l, by rw [he, List.nil_append], hl⟩
        | cons y x2 =>
            have he : e = y := List.head_eq_of_cons_eq h
            have hl : l.filter (atDepth dw) = x2 ++ [(w, dw)] :=
              List.tail_eq_of_cons_eq h
            rcases last_filter_decomp l x2 w dw hl with
              ⟨preL, postL, heq, hpost⟩
            exact ⟨e :: preL, postL, by rw [heq]; rfl, hpost⟩
      · rw [if_neg hd] at h
        rcases last_filter_decomp l x w dw h with ⟨preL, postL, heq, hpost⟩
        exact ⟨e :: preL, postL, by rw [heq]; rfl, hpost⟩

theorem pickDeepest_doc (p : HNode → Bool) (l : NodeList)
    (preT postT : List (HNode × Nat)) (w : HNode) (dw : Nat)
    (hdoc : preorderWithDepthL p l 0 = preT ++ (w, dw) :: postT)
    (hpreB : ∀ e ∈ preT, e.2 ≤ dw)
    (hpostB : ∀ e ∈ postT, e.2 < dw) :
    pickDeepest (layeredWithDepth p l 0) = some (w, dw) := by
  have hpostFil : postT.filter (atDepth dw) = [] := by
    rw [List.filter_eq_nil_iff]
    intro e he
    have hlt := hpostB e he
    simp [atDepth]
    omega
  have hfil : (layeredWithDepth p l 0).filter (atDepth dw)
      = preT.filter (atDepth dw) ++ [(w, dw)] := by
    rw [layeredCorr, hdoc, List.filter_append, List.filter_cons,
      if_pos (show atDepth dw (w, dw) = true by simp [atDepth]), hpostFil]
  rcases last_filter_decomp _ _ _ _ hfil with ⟨preL, postL, heq, hpostF⟩
  have hglob : ∀ e ∈ layeredWithDepth p l 0, e.2 ≤ dw := by
    intro e he
    have h2 := layered_mem_preorder p l e he
    rw [hdoc] at h2
    rcases List.mem_append.mp h2 with h3 | h3
    · exact hpreB e h3
    · rcases List.mem_cons.mp h3 with h4 | h4
      · rw [h4]
      · exact Nat.le_of_lt (hpostB e h4)
  have hpreLB : ∀ e ∈ preL, e.2 ≤ dw := by
    intro e he
    exact hglob e (by rw [heq]; exact List.mem_append.mpr (Or.inl he))
  have hpostLB : ∀ e ∈ postL, e.2 < dw := by
    intro e he
    have h1 : e.2 ≤ dw := hglob e
      (by rw [heq]
          exact List.mem_append.mpr (Or.inr (List.mem_cons_of_mem _ he)))
    have h2 : ¬ (atDepth dw e = true) := by
      intro hc
      have h3 : e ∈ postL.filter (atDepth dw) :=
        List.mem_filter.mpr ⟨he, hc⟩
      rw [hpostF] at h3
      exact absurd h3 (List.not_mem_nil e)
    simp [atDepth] at h2
    omega
  rw [heq]
  exact pickDeepest_decomp preL w dw postL hpreLB hpostLB

/-- C8: in document mode, for an `html` element whose children contain a
`body`, the title step removes every `title` inside that body, and the
winning title — characterized here in document pre-order as the last
entry whose depth is maximal (everything after it is strictly
shallower, everything before it no deeper) — is installed: appended to
the existing `head` child after stripping its titles, or as a freshly
synthesized first `head` child; when the body holds no title at all the
children are returned unchanged. -/
theorem documentTitleRelocation (hChildren : NodeList) (bt : String)
    (ba : AttrList) (bcs : NodeList)
    (hbody : hChildren.find? (isTagNamed "body") = some (.elem bt ba bcs)) :
    (preorderWithDepthL (isTagNamed "title") bcs 0 = [] →
      handleHtmlEl hChildren = hChildren)
    ∧ (∀ (preT postT : List (HNode × Nat)) (w : HNode) (dw : Nat),
        preorderWithDepthL (isTagNamed "title") bcs 0
          = preT ++ (w, dw) :: postT →
        (∀ e ∈ preT, e.2 ≤ dw) → (∀ e ∈ postT, e.2 < dw) →
        containsTagL "title" (removeByTagL "title" bcs) = false
        ∧ handleHtmlEl hChildren =
          (match (hChildren.updateFirst (isTagNamed "body")
              (fun _ => .elem bt ba (removeByTagL "title" bcs))).find?
              (isTagNamed "head") with
           | some (.elem ht2 ha hcs) =>
               (hChildren.updateFirst (isTagNamed "body")
                 (fun _ => .elem bt ba (removeByTagL "title" bcs))).updateFirst
                 (isTagNamed "head")
                 (fun _ => .elem ht2 ha (removeByTagL "title" hcs ++ one w))
           | _ => .cons (.elem "head" [] (one w))
               (hChildren.updateFirst (isTagNamed "body")
                 (fun _ => .elem bt ba (removeByTagL "title" bcs))))) := by
  constructor
  · intro hnone
    have hlay : layeredWithDepth (isTagNamed "title") bcs 0 = [] := by
      cases hl : layeredWithDepth (isTagNamed "title") bcs 0 with
      | nil => rfl
      | cons e rest =>
          have hmem : e ∈ layeredWithDepth (isTagNamed "title") bcs 0 := by
            rw [hl]
            exact List.mem_cons_self e rest
          have h2 := layered_mem_preorder (isTagNamed "title") bcs e hmem
          rw [hnone] at h2
          exact absurd h2 (List.not_mem_nil e)
    simp only [handleHtmlEl, hbody, hlay]
    rfl
  · intro preT postT w dw hdoc hpreB hpostB
    refine ⟨removeByTagL_removes "title" bcs, ?_⟩
    have hpick := pickDeepest_doc (isTagNamed "title") bcs preT postT w dw
      hdoc hpreB hpostB
    simp only [handleHtmlEl, hbody, hpick]

/-- Witness for `documentTitleRelocation`: a body with a depth-1 title
inside a `div` and a depth-0 title; the deeper one wins, both are
removed from the body, and a `head` holding the winner is synthesized
in front. -/
theorem documentTitleRelocationWitness :
    handleHtmlEl (NodeList.ofList
        [ .elem "body" [] (NodeList.ofList
            [ .elem "div" [] (one (.elem "title" [] (one (.text "deep")))),
              .elem "title" [] (one (.text "shallow")) ]) ])
      = NodeList.ofList
        [ .elem "head" [] (one (.elem "title" [] (one (.text "deep")))),
          .elem "body" [] (one (.elem "div" [] .nil)) ] := by
  have h := (documentTitleRelocation
    (NodeList.ofList
      [ .elem "body" [] (NodeList.ofList
          [ .elem "div" [] (one (.elem "title" [] (one (.text "deep")))),
            .elem "title" [] (one (.text "shallow")) ]) ])
    "body" []
    (NodeList.ofList
      [ .elem "div" [] (one (.elem "title" [] (one (.text "deep")))),
        .elem "title" [] (one (.text "shallow")) ])
    rfl).2
    [] [(.elem "title" [] (one (.text "shallow")), 0)]
    (.elem "title" [] (one (.text "deep"))) 1
    rfl (by simp)
    (by intro e he
        rw [List.mem_singleton] at he
        rw [he]
        decide)
  rw [h.2]
  rfl

theorem nlLength_append : ∀ (a b : NodeList),
    (a ++ b).length = a.length + b.length
  | .nil, b => by
      rw [nlNil_append]
      show b.length = NodeList.length .nil + b.length
      rw [NodeList.length]
      omega
  | .cons n a, b => by
      rw [nlCons_append]
      show NodeList.length (.cons n (a ++ b)) = _
      rw [NodeList.length, nlLength_append a b]
      show _ = NodeList.length (.cons n a) + b.length
      rw [NodeList.length]
      omega

theorem specValidIdent_start (s : String)
    (h : specValidIdentifier s = true) : containsIdentStart s = true := by
  rw [specValidIdentifier] at h
  rw [containsIdentStart]
  cases hd : s.data with
  | nil => rw [hd] at h; simp at h
  | cons c rest =>
      rw [hd] at h
      simp only [Bool.and_eq_true, decide_eq_true_eq] at h
      simp only [List.any_cons, Bool.or_eq_true, decide_eq_true_eq]
      exact Or.inl h.1

theorem forIter_unroll (cfg : Cfg) (item : String) (children : NodeList)
    (scope : Scope) :
    ∀ (f : Nat) (vs : ValueArr) (out : NodeList) (cnt : Nat),
    rewriteRun cfg f (.forIter item vs children scope) = .ok (out, cnt) →
    ∃ bodies : List NodeList,
      bodies.length = vs.toList.length
      ∧ (∀ i (hi : i < vs.toList.length) (hi2 : i < bodies.length),
          ∃ fi, rewriteRun cfg fi
            (.tree children 0 (scopeSet scope item (vs.toList.get ⟨i, hi⟩)))
            = .ok (bodies.get ⟨i, hi2⟩, 0))
      ∧ out = joinN bodies ∧ cnt = (joinN bodies).length := by
  intro f
  induction f with
  | zero =>
      intro vs out cnt h
      simp [rewriteRun] at h
  | succ f ih =>
      intro vs out cnt h
      cases vs with
      | nil =>
          simp only [rewriteRun, Res.ok.injEq, Prod.mk.injEq] at h
          refine ⟨[], rfl, ?_, ?_, ?_⟩
          · intro i hi hi2
            exact absurd hi2 (by simp)
          · rw [← h.1]
            rfl
          · rw [← h.2]
            rfl
      | cons v rest =>
          simp only [rewriteRun, bindDef, Res.bind_eq_ok] at h
          obtain ⟨body, hbody, h2⟩ := h
          obtain ⟨more, hmore, h3⟩ := h2
          simp only [Res.ok.injEq, Prod.mk.injEq] at h3
          obtain ⟨bodies, hlen, hbods, hout, hcnt⟩ :=
            ih rest more.1 more.2 hmore
          have hzero : body.2 = 0 := treeRes_snd_zero cfg f hbody
          have hbody2 : rewriteRun cfg f
              (.tree children 0 (scopeSet scope item v)) = .ok (body.1, 0) := by
            rw [hbody]
            have : body = (body.1, 0) := by
              calc body = (body.1, body.2) := rfl
                _ = (body.1, 0) := by rw [hzero]
            rw [← this]
          refine ⟨body.1 :: bodies, ?_, ?_, ?_, ?_⟩
          · show bodies.length + 1 = _
            rw [hlen]
            rfl
          · intro i hi hi2
            cases i with
            | zero => exact ⟨f, hbody2⟩
            | succ i =>
                have hi1 : i < rest.toList.length :=
                  Nat.lt_of_succ_lt_succ hi
                have hi3 : i < bodies.length :=
                  Nat.lt_of_succ_lt_succ hi2
                obtain ⟨fi, hfi⟩ := hbods i hi1 hi3
                exact ⟨fi, hfi⟩
          · rw [← h3.1, hout]
            rfl
          · rw [← h3.2, hcnt, joinN, nlLength_append]

/-- C2: a `for` element at the cursor whose `item` attribute is a valid
identifier and whose `in` attribute evaluates to an array is replaced by
one processed copy of its children per array element, in array order:
there is a list of bodies, one per value, each the result of processing
the children under the scope binding the loop variable to the
corresponding value (on top of the hidden `__array` binding), and the
node is spliced out in favour of their concatenation, with the cursor
advanced past all of them.  The loop variable lives only in the
per-iteration scope: the result carries no binding out, and the
enclosing scope object is passed on unchanged to the siblings. -/
theorem forLoopCardinality (cfg : Cfg) (f : Nat) (nodes : NodeList)
    (cursor : Nat) (proto : Scope) (attribs : AttrList)
    (children : NodeList) (item inExpr : String) (vs : ValueArr)
    (out : NodeList) (cnt : Nat)
    (hget : nodes.get? cursor = some (.elem "for" attribs children))
    (hnoev : noEvalAttrs attribs = true)
    (hitem : getAttr attribs "item" = some item)
    (hin : getAttr attribs "in" = some inExpr)
    (hident : specValidIdentifier item = true)
    (harr : cfg.evalExpr inExpr (pushFrame proto) = .vArr vs)
    (hok : rewriteRun cfg (Nat.succ f) (.node nodes cursor proto)
      = .ok (out, cnt)) :
    ∃ bodies : List NodeList,
      bodies.length = vs.toList.length
      ∧ (∀ i (hi : i < vs.toList.length) (hi2 : i < bodies.length),
          ∃ fi, rewriteRun cfg fi
            (.tree children 0
              (scopeSet (scopeSet (pushFrame proto) "__array" (.vArr vs))
                item (vs.toList.get ⟨i, hi⟩)))
            = .ok (bodies.get ⟨i, hi2⟩, 0))
      ∧ out = nlSplice nodes cursor (joinN bodies)
      ∧ cnt = (joinN bodies).length := by
  have hstart := specValidIdent_start item hident
  simp only [rewriteRun, hget, bindDef] at hok
  simp only [processAttribs_id hnoev] at hok
  simp [hitem, hin, hstart, harr, dynamicTagName,
    componentTagName, componentTagStart, strBeginsWith, charsBegin] at hok
  rcases hw : rewriteRun cfg f
      (.forIter item vs children
        (scopeSet (pushFrame proto) "__array" (.vArr vs))) with w | m
  · rw [hw] at hok
    simp only [Res.bind, Res.ok.injEq, Prod.mk.injEq] at hok
    obtain ⟨bodies, hlen, hbods, hout, hcnt⟩ :=
      forIter_unroll cfg item children
        (scopeSet (pushFrame proto) "__array" (.vArr vs)) f vs w.1 w.2 hw
    refine ⟨bodies, hlen, hbods, ?_, ?_⟩
    · rw [← hok.1, hout]
    · rw [← hok.2, hcnt]
  · rw [hw] at hok
    simp [Res.bind] at hok
  · rw [hw] at hok
    simp [Res.bind] at hok

/-- Witness for `forLoopCardinality`: the spec instance
`<for item="x" in="[3,5,7]"><p>%% x %%</p></for>` produces exactly the
three paragraphs `3`, `5`, `7` in order. -/
theorem forLoopCardinalityWitness :
    ∃ bodies : List NodeList,
      bodies.length
          = (ValueArr.ofList [.vNum 3, .vNum 5, .vNum 7]).toList.length
      ∧ (∀ i
            (hi : i <
              (ValueArr.ofList [.vNum 3, .vNum 5, .vNum 7]).toList.length)
            (hi2 : i < bodies.length),
          ∃ fi, rewriteRun witnessCfg fi
            (.tree (one (.elem "p" [] (one (.text "%% x %%")))) 0
              (scopeSet
                (scopeSet (pushFrame []) "__array"
    (.vArr (ValueArr.ofList [.vNum 3, .vNum 5, .vNum 7])))
                "x"
                ((ValueArr.ofList
                    [.vNum 3, .vNum 5, .vNum 7]).toList.get ⟨i, hi⟩)))
            = .ok (bodies.get ⟨i, hi2⟩, 0))
      ∧ NodeList.ofList
          [ .elem "p" [] (one (.text "3")),
            .elem "p" [] (one (.text "5")),
            .elem "p" [] (one (.text "7")) ]
          = nlSplice
              (one (.elem "for" [("item", "x"), ("in", "ARR357")]
                (one (.elem "p" [] (one (.text "%% x %%")))))) 0
              (joinN bodies)
      ∧ 3 = (joinN bodies).length :=
  forLoopCardinality witnessCfg 9
    (one (.elem "for" [("item", "x"), ("in", "ARR357")]
      (one (.elem "p" [] (one (.text "%% x %%")))))) 0 []
    [("item", "x"), ("in", "ARR357")]
    (one (.elem "p" [] (one (.text "%% x %%"))))
    "x" "ARR357" (ValueArr.ofList [.vNum 3, .vNum 5, .vNum 7])
    (NodeList.ofList
      [ .elem "p" [] (one (.text "3")),
        .elem "p" [] (one (.text "5")),
        .elem "p" [] (one (.text "7")) ]) 3
    rfl rfl rfl rfl (by decide) rfl rfl

theorem dropChain_elseifs : ∀ (es : List (AttrList × NodeList))
    (x : NodeList), dropChainElems (elseifNodes es ++ x) = dropChainElems x
  | [], x => by rw [elseifNodes, nlNil_append]
  | b :: es, x => by
      rw [elseifNodes, nlCons_append, dropChainElems]
      rw [if_pos (show isElemNode (.elem "elseif" b.1 b.2) = true from rfl)]
      rw [if_pos (Or.inl (show tagOf (.elem "elseif" b.1 b.2) = "elseif"
        from rfl))]
      exact dropChain_elseifs es x

theorem dropChain_elseOpt (eo : Option (AttrList × NodeList))
    (x : NodeList) :
    dropChainElems (elseNodeOpt eo ++ x) = dropChainElems x := by
  cases eo with
  | none => rw [elseNodeOpt, nlNil_append]
  | some e =>
      rw [elseNodeOpt, one, nlCons_append, dropChainElems]
      rw [if_pos (show isElemNode (.elem "else" e.1 e.2) = true from rfl)]
      rw [if_pos (Or.inr (show tagOf (.elem "else" e.1 e.2) = "else"
        from rfl))]
      rw [nlNil_append]

theorem dropChain_tail : ∀ (tl : NodeList), tailStopsChain tl = true →
    dropChainElems tl = tl
  | .nil, _ => rfl
  | .cons n rest, h => by
      rw [tailStopsChain] at h
      rw [dropChainElems]
      by_cases he : isElemNode n = true
      · rw [if_pos he] at h
        rw [if_pos he, if_neg (of_decide_eq_true h)]
      · rw [if_neg he] at h
        rw [if_neg he, dropChain_tail rest h]

/-- The full removal: the `elseif` run, the optional `else`, then a
stopped tail are cleaned down to exactly the tail. -/
theorem nlAppend_assoc : ∀ (a b c : NodeList),
    (a ++ b) ++ c = a ++ (b ++ c)
  | .nil, b, c => by rw [nlNil_append, nlNil_append]
  | .cons n a, b, c => by
      rw [nlCons_append, nlCons_append, nlCons_append,
        nlAppend_assoc a b c]

theorem dropChain_full (es : List (AttrList × NodeList))
    (eo : Option (AttrList × NodeList)) (tl : NodeList)
    (h : tailStopsChain tl = true) :
    dropChainElems ((elseifNodes es ++ elseNodeOpt eo) ++ tl) = tl := by
  rw [nlAppend_assoc, dropChain_elseifs, dropChain_elseOpt,
    dropChain_tail tl h]

theorem split_not_chain : ∀ (tl : NodeList),
    tailStopsChain tl = true →
    ∀ (pre post : NodeList) (sib : HNode),
    splitAtFirstElem tl = (pre, some (sib, post)) →
    ¬ (tagOf sib = "elseif" ∨ tagOf sib = "else")
  | .nil, _, pre, post, sib, hsp => by
      rw [splitAtFirstElem] at hsp
      simp at hsp
  | .cons n rest, h, pre, post, sib, hsp => by
      rw [tailStopsChain] at h
      rw [splitAtFirstElem] at hsp
      by_cases he : isElemNode n = true
      · rw [if_pos he] at h hsp
        simp only [Prod.mk.injEq, Option.some.injEq] at hsp
        have hn : sib = n := hsp.2.1.symm
        rw [hn]
        exact of_decide_eq_true h
      · rw [if_neg he] at h hsp
        simp only [Prod.mk.injEq] at hsp
        exact split_not_chain rest h (splitAtFirstElem rest).1 post sib
          (by rw [← hsp.2])

theorem condChainAux (cfg : Cfg) (scope : Scope) :
    ∀ (F : Nat) (tg : String) (a0 : AttrList) (cs0 : NodeList)
      (es : List (AttrList × NodeList)) (eo : Option (AttrList × NodeList))
      (tl : NodeList) (out : NodeList) (k : Nat),
    (tg = "if" ∨ tg = "elseif") →
    (getAttr a0 "condition").isSome = true →
    (∀ b ∈ es, (getAttr b.1 "condition").isSome = true) →
    tailStopsChain tl = true →
    rewriteRun cfg F (.cond (.elem tg a0 cs0)
      (elseifNodes es ++ elseNodeOpt eo ++ tl) scope) = .ok (out, k) →
    (∀ cs, chainChoose cfg scope ((a0, cs0) :: es) eo = some cs →
        ∃ f2 inner,
          rewriteRun cfg f2 (.tree cs 0 scope) = .ok (inner, 0)
          ∧ out = inner ++ tl ∧ k = inner.length)
    ∧ (chainChoose cfg scope ((a0, cs0) :: es) eo = none →
        out = tl ∧ k = 0) := by
  intro F
  induction F with
  | zero =>
      intro tg a0 cs0 es eo tl out k htg hc0 hcs htl hok
      simp [rewriteRun] at hok
  | succ f ih =>
      intro tg a0 cs0 es eo tl out k htg hc0 hcs htl hok
      rcases hc : getAttr a0 "condition" with _ | c
      · rw [hc] at hc0
        simp at hc0
      · simp only [rewriteRun, bindDef, if_pos htg, hc, Res.bind] at hok
        rcases ht : truthy (cfg.evalExpr c scope) with _ | _
        · -- condition false: fall through to the rest of the chain
          have hnt : ¬ (truthy (cfg.evalExpr c scope) = true) := by
            simp [ht]
          rw [if_neg hnt] at hok
          have hct : ¬ (condTruthy cfg scope a0 = some true) := by
            rw [condTruthy, hc]
            simp [ht]
          have hch : chainChoose cfg scope ((a0, cs0) :: es) eo
              = chainChoose cfg scope es eo := by
            rw [chainChoose, if_neg hct]
          cases es with
          | cons b2 es2 =>
              have hr : (elseifNodes (b2 :: es2) ++ elseNodeOpt eo) ++ tl
                  = .cons (.elem "elseif" b2.1 b2.2)
                      ((elseifNodes es2 ++ elseNodeOpt eo) ++ tl) := by
                rw [elseifNodes, nlCons_append, nlCons_append]
              rw [hr, splitAtFirstElem,
                if_pos (show isElemNode (.elem "elseif" b2.1 b2.2) = true
                  from rfl)] at hok
              simp only [] at hok
              rw [if_pos (Or.inl
                (show tagOf (.elem "elseif" b2.1 b2.2) = "elseif"
                  from rfl))] at hok
              rcases hw : rewriteRun cfg f (.cond (.elem "elseif" b2.1 b2.2)
                  ((elseifNodes es2 ++ elseNodeOpt eo) ++ tl) scope)
                with w | m
              · rw [hw] at hok
                simp only [Res.bind, Res.ok.injEq, Prod.mk.injEq,
                  nlNil_append] at hok
                have ihres := ih "elseif" b2.1 b2.2 es2 eo tl w.1 w.2
                  (Or.inr rfl) (hcs b2 (List.mem_cons_self b2 es2))
                  (fun b hb => hcs b (List.mem_cons_of_mem b2 hb)) htl hw
                refine ⟨?_, ?_⟩
                · intro cs hcs2
                  rw [hch] at hcs2
                  obtain ⟨f2, inner, h1, h2, h3⟩ := ihres.1 cs hcs2
                  exact ⟨f2, inner, h1, by rw [← hok.1, h2],
                    by rw [← hok.2, h3]⟩
                · intro hchn
                  rw [hch] at hchn
                  obtain ⟨h1, h2⟩ := ihres.2 hchn
                  exact ⟨by rw [← hok.1, h1], by rw [← hok.2, h2]⟩
              · rw [hw] at hok
                simp [Res.bind] at hok
              · rw [hw] at hok
                simp [Res.bind] at hok
          | nil =>
              cases eo with
              | some e =>
                  have hr : (elseifNodes ([] : List (AttrList × NodeList))
                        ++ elseNodeOpt (some e)) ++ tl
                      = .cons (.elem "else" e.1 e.2) tl := by
                    rw [elseifNodes, elseNodeOpt, nlNil_append, one,
                      nlCons_append, nlNil_append]
                  rw [hr, splitAtFirstElem,
                    if_pos (show isElemNode (.elem "else" e.1 e.2) = true
                      from rfl)] at hok
                  simp only [] at hok
                  rw [if_pos (Or.inr
                    (show tagOf (.elem "else" e.1 e.2) = "else"
                      from rfl))] at hok
                  cases f with
                  | zero => simp [rewriteRun, Res.bind] at hok
                  | succ f2 =>
                      simp only [rewriteRun, bindDef,
                        if_neg (show ¬ (("else" : String) = "if"
                            ∨ ("else" : String) = "elseif") by simp),
                        if_pos (show ("else" : String) = "else" from rfl),
                        Res.bind, if_true] at hok
                      rcases hw : rewriteRun cfg f2 (.tree e.2 0 scope)
                        with w | m
                      · rw [hw] at hok
                        simp only [Res.bind, Res.ok.injEq, Prod.mk.injEq,
                          nlNil_append] at hok
                        have hch2 : chainChoose cfg scope
                            ((a0, cs0) :: []) (some e) = some e.2 := by
                          rw [hch]
                          rfl
                        refine ⟨?_, ?_⟩
                        · intro cs hcs2
                          rw [hch2, Option.some.injEq] at hcs2
                          subst hcs2
                          refine ⟨f2, w.1, ?_, ?_, ?_⟩
                          · rw [hw]
                            have hz : w.2 = 0 := treeRes_snd_zero cfg f2 hw
                            calc Res.ok w = Res.ok (w.1, w.2) := rfl
                              _ = Res.ok (w.1, 0) := by rw [hz]
                          · rw [← hok.1, dropChain_tail tl htl]
                          · exact hok.2.symm
                        · intro hchn
                          rw [hch2] at hchn
                          simp at hchn
                      · rw [hw] at hok
                        simp [Res.bind] at hok
                      · rw [hw] at hok
                        simp [Res.bind] at hok
              | none =>
                  have hr : (elseifNodes ([] : List (AttrList × NodeList))
                        ++ elseNodeOpt none) ++ tl = tl := by
                    rw [elseifNodes, elseNodeOpt, nlNil_append, nlNil_append]
                  rw [hr] at hok
                  have hch2 : chainChoose cfg scope ((a0, cs0) :: [])
                      (none : Option (AttrList × NodeList)) = none := by
                    rw [hch]
                    rfl
                  rcases hsp : splitAtFirstElem tl with ⟨pre, o⟩
                  rcases o with _ | ⟨sib, post⟩
                  · rw [hsp] at hok
                    simp only [Res.ok.injEq, Prod.mk.injEq] at hok
                    refine ⟨?_, ?_⟩
                    · intro cs hcs2
                      rw [hch2] at hcs2
                      simp at hcs2
                    · intro h2
                      exact ⟨hok.1.symm, hok.2.symm⟩
                  · rw [hsp] at hok
                    have hnot := split_not_chain tl htl pre post sib hsp
                    simp only [] at hok
                    rw [if_neg hnot] at hok
                    simp only [Res.ok.injEq, Prod.mk.injEq] at hok
                    refine ⟨?_, ?_⟩
                    · intro cs hcs2
                      rw [hch2] at hcs2
                      simp at hcs2
                    · intro h2
                      exact ⟨hok.1.symm, hok.2.symm⟩
        · -- condition true: this branch is chosen
          rw [if_pos ht] at hok
          rcases hw : rewriteRun cfg f (.tree cs0 0 scope) with w | m
          · rw [hw] at hok
            simp only [Res.bind, Res.ok.injEq, Prod.mk.injEq] at hok
            have hct : condTruthy cfg scope a0 = some true := by
              rw [condTruthy, hc]
              simp [ht]
            have hch : chainChoose cfg scope ((a0, cs0) :: es) eo
                = some cs0 := by
              rw [chainChoose, if_pos hct]
            refine ⟨?_, ?_⟩
            · intro cs hcs2
              rw [hch, Option.some.injEq] at hcs2
              subst hcs2
              refine ⟨f, w.1, ?_, ?_, ?_⟩
              · rw [hw]
                have hz : w.2 = 0 := treeRes_snd_zero cfg f hw
                calc Res.ok w = Res.ok (w.1, w.2) := rfl
                  _ = Res.ok (w.1, 0) := by rw [hz]
              · rw [← hok.1, dropChain_full es eo tl htl]
              · exact hok.2.symm
            · intro hchn
              rw [hch] at hchn
              simp at hchn
          · rw [hw] at hok
            simp [Res.bind] at hok
          · rw [hw] at hok
            simp [Res.bind] at hok

/-- C1: a sibling chain starting with an `if` element at the cursor,
followed by zero or more `elseif` elements, an optional `else` element
and a tail that does not continue the chain (its first element sibling
is neither `elseif` nor `else`), is replaced — together with every
non-chosen branch — by the recursively processed children of exactly
the branch `chainChoose` selects: the first branch in source order
whose condition evaluates truthy, else the `else` branch when present;
when no branch is chosen the whole chain vanishes and nothing is
inserted. -/
theorem conditionalChainExclusivity (cfg : Cfg) (f : Nat)
    (nodes : NodeList) (cursor : Nat) (proto : Scope) (a0 : AttrList)
    (cs0 : NodeList) (es : List (AttrList × NodeList))
    (eo : Option (AttrList × NodeList)) (tl : NodeList) (out : NodeList)
    (k : Nat)
    (hget : nodes.get? cursor = some (.elem "if" a0 cs0))
    (hnoev : noEvalAttrs a0 = true)
    (hdrop : nodes.drop (cursor + 1)
      = elseifNodes es ++ elseNodeOpt eo ++ tl)
    (hc0 : (getAttr a0 "condition").isSome = true)
    (hcs : ∀ b ∈ es, (getAttr b.1 "condition").isSome = true)
    (htl : tailStopsChain tl = true)
    (hok : rewriteRun cfg (Nat.succ f) (.node nodes cursor proto)
      = .ok (out, k)) :
    (∀ cs,
        chainChoose cfg (pushFrame proto) ((a0, cs0) :: es) eo = some cs →
        ∃ f2 inner,
          rewriteRun cfg f2 (.tree cs 0 (pushFrame proto)) = .ok (inner, 0)
          ∧ out = nodes.take cursor ++ (inner ++ tl) ∧ k = inner.length)
    ∧ (chainChoose cfg (pushFrame proto) ((a0, cs0) :: es) eo = none →
        out = nodes.take cursor ++ tl ∧ k = 0) := by
  simp only [rewriteRun, hget, bindDef] at hok
  simp only [processAttribs_id hnoev] at hok
  simp [dynamicTagName, componentTagName, componentTagStart,
    strBeginsWith, charsBegin] at hok
  rw [hdrop] at hok
  rcases hw : rewriteRun cfg f (.cond (.elem "if" a0 cs0)
      (elseifNodes es ++ elseNodeOpt eo ++ tl) (pushFrame proto))
    with w | m
  · rw [hw] at hok
    simp only [Res.bind, Res.ok.injEq, Prod.mk.injEq] at hok
    have aux := condChainAux cfg (pushFrame proto) f "if" a0 cs0 es eo tl
      w.1 w.2 (Or.inl rfl) hc0 hcs htl hw
    refine ⟨?_, ?_⟩
    · intro cs hcs2
      obtain ⟨f2, inner, h1, h2, h3⟩ := aux.1 cs hcs2
      exact ⟨f2, inner, h1, by rw [← hok.1, h2], by rw [← hok.2, h3]⟩
    · intro hchn
      obtain ⟨h1, h2⟩ := aux.2 hchn
      exact ⟨by rw [← hok.1, h1], by rw [← hok.2, h2]⟩
  · rw [hw] at hok
    simp [Res.bind] at hok
  · rw [hw] at hok
    simp [Res.bind] at hok

/-- Witness for `conditionalChainExclusivity`: a four-node chain
`if(false) / elseif(true) / else / p` keeps exactly the `elseif`
children followed by the untouched `p` tail. -/
theorem conditionalChainExclusivityWitness :
    ∃ f2 inner,
      rewriteRun witnessCfg f2
        (.tree (one (.text "B")) 0 (pushFrame [])) = .ok (inner, 0)
      ∧ NodeList.ofList [.text "B", .elem "p" [] .nil]
          = (NodeList.ofList
              [ .elem "if" [("condition", "CFALSE")] (one (.text "A")),
                .elem "elseif" [("condition", "CTRUE")] (one (.text "B")),
                .elem "else" [] (one (.text "C")),
                .elem "p" [] .nil ]).take 0
            ++ (inner ++ one (.elem "p" [] .nil))
      ∧ 1 = inner.length :=
  (conditionalChainExclusivity witnessCfg 9
    (NodeList.ofList
      [ .elem "if" [("condition", "CFALSE")] (one (.text "A")),
        .elem "elseif" [("condition", "CTRUE")] (one (.text "B")),
        .elem "else" [] (one (.text "C")),
        .elem "p" [] .nil ]) 0 []
    [("condition", "CFALSE")] (one (.text "A"))
    [([("condition", "CTRUE")], one (.text "B"))]
    (some ([], one (.text "C"))) (one (.elem "p" [] .nil))
    (NodeList.ofList [.text "B", .elem "p" [] .nil]) 1
    rfl rfl rfl rfl (by decide) (by decide) rfl).1
    (one (.text "B")) rfl

end HTmp
